import Mathlib

/-!
Go-Coursera-Web: the signer pipeline (hw2) and the search server (hw4).

A shallow embedding of `hw2_signer/signer.go` and of the `SearchServer` handler of
`hw4_test_coverage/client_test.go`.

* Go strings are byte sequences (`Str`).
* Go `int` is a 64-bit two's-complement integer: values are `Int`, arithmetic wraps (`wrapInt`).
* Goroutines are modelled by an interleaving semantics: a state holds the control point of every
  goroutine, an action names the goroutine (or the rendezvous) that moves, and `step` is the
  partial transition function. An unbuffered channel operation is a rendezvous of a sender and a
  receiver.
-/

set_option autoImplicit false

namespace GoCoursera

/-! ## Strings -/

/-- A Go string: a finite sequence of bytes. -/
abbrev Str := List (Fin 256)

/-- An ASCII string literal as a Go string. -/
def lit (s : String) : Str := s.toList.map (fun c => Fin.ofNat c.toNat)

/-- The Go comparison `a <= b` on strings: byte-wise lexicographic. -/
def strLe : Str → Str → Bool
  | [], _ => true
  | _ :: _, [] => false
  | a :: as, b :: bs => if a.val < b.val then true else if b.val < a.val then false else strLe as bs

/-- The library function `strings.Join(elems, sep)`. -/
def stringsJoin : List Str → Str → Str
  | [], _ => []
  | [a], _ => a
  | a :: b :: rest, sep => a ++ sep ++ stringsJoin (b :: rest) sep

/-- The order of Go strings as a relation. -/
def StrLE (a b : Str) : Prop := strLe a b = true

instance : DecidableRel StrLE := fun a b => inferInstanceAs (Decidable (strLe a b = true))

/-- The library function `sort.Strings`: the ascending rearrangement of the slice. -/
def sortStrings (arr : List Str) : List Str := arr.insertionSort StrLE

/-! ## Machine integers -/

/-- Two's-complement wrap-around of a 64-bit Go `int`. -/
def wrapInt (z : Int) : Int := (z + 2 ^ 63) % 2 ^ 64 - 2 ^ 63

/-- Go `a + b` on `int`. -/
def addInt (a b : Int) : Int := wrapInt (a + b)

/-- The values a Go `int` can hold. -/
def IsInt (z : Int) : Prop := -(2 ^ 63) ≤ z ∧ z < 2 ^ 63

/-! ## hw4: the search server -/

/-- The `User` record of the search client; its declaration is in `client.go`, the fields are the
ones `forRowToUser` fills, in that order. -/
structure User where
  Id : Int
  Name : Str
  Age : Int
  About : Str
  Gender : Str
deriving DecidableEq, Repr

/-- The constants of `client.go` that `sortUsers` reads. -/
structure OrderConsts where
  OrderByAsIs : Int
  orderDesc : Int
  ErrorBadOrderField : Str

/-- The `less` closure `sortUsers` selects for an order field, `none` for the `default` branch. -/
def orderLess (orderField : Str) : Option (User → User → Bool) :=
  if orderField = lit "Id" then some (fun u1 u2 => decide (u1.Id < u2.Id))
  else if orderField = lit "Name" ∨ orderField = lit "" then
    some (fun u1 u2 => !(strLe u2.Name u1.Name))
  else if orderField = lit "Age" then some (fun u1 u2 => decide (u1.Age < u2.Age))
  else none

/-- The function `sortUsers`: the returned error (`none` is Go's `nil`, otherwise the text given
to `fmt.Errorf`) and the slice contents afterwards. `sortSlice` is the library function `sort.Slice` applied to the comparison. -/
def sortUsers (c : OrderConsts) (sortSlice : (User → User → Bool) → List User → List User)
    (users : List User) (orderField : Str) (orderBy : Int) : Option Str × List User :=
  if orderBy = c.OrderByAsIs then (none, users)
  else
    match orderLess orderField with
    | none => (some c.ErrorBadOrderField, users)
    | some less =>
      (none, sortSlice (fun u1 u2 => less u1 u2 && decide (orderBy = c.orderDesc)) users)

/-- The Go slice expression `s[lo:hi]` on a slice whose capacity is its length; `none` is the
run-time panic "slice bounds out of range". -/
def sliceExpr {α : Type} (s : List α) (lo hi : Int) : Option (List α) :=
  if 0 ≤ lo ∧ lo ≤ hi ∧ hi ≤ (s.length : Int) then
    some ((s.drop lo.toNat).take (hi.toNat - lo.toNat))
  else none

/-- The pagination of `SearchServer` (the `if offset >= len(res) ...` chain): the page that is
serialised, `none` when a slice expression panics. -/
def SearchServer_page (res : List User) (limit offset : Int) : Option (List User) :=
  if offset ≥ (res.length : Int) then some []
  else if addInt limit offset > (res.length : Int) then sliceExpr res offset (res.length : Int)
  else if limit > 0 then sliceExpr res offset (addInt offset limit)
  else some res

/-! ## hw2: values on the feeds and the hash service -/

/-- A value travelling on a feed (`chan interface{}`): the generator sends integers, the signer
stages send strings. -/
inductive Item where
  | int (n : Int)
  | str (s : Str)
deriving DecidableEq, Repr

/-- Decimal digits of a natural number, most significant first (`fuel` bounds the digit count). -/
def decimalAux : Nat → Nat → Str → Str
  | 0, _, acc => acc
  | fuel + 1, n, acc =>
    if n < 10 then Fin.ofNat (48 + n) :: acc
    else decimalAux fuel (n / 10) (Fin.ofNat (48 + n % 10) :: acc)

/-- The formatting `fmt.Sprintf("%d", n)` of a natural number. -/
def sprintD (n : Nat) : Str := decimalAux (n + 1) n []

/-- The formatting `fmt.Sprintf("%v", i)` of a feed value. -/
def sprintV : Item → Str
  | .int n => if n < 0 then Fin.ofNat 45 :: sprintD n.natAbs else sprintD n.natAbs
  | .str s => s

/-- The two hash functions of `common.go`, which this package only calls. -/
structure HashService where
  DataSignerCrc32 : Str → Str
  DataSignerMd5 : Str → Str

/-- Control point of a stage function that ranges over its input feed, then waits for its
workers: inside `for i := range in`, at `wg.Wait()`, returned. -/
inductive LoopPc where
  | loop
  | wait
  | ret
deriving DecidableEq, Repr

/-! ## SingleHash -/

namespace SingleHash

/-- The goroutine `res <- DataSignerCrc32(data)`: before the call, blocked on the send, gone. -/
inductive Crc where
  | call
  | send (v : Str)
  | done
deriving DecidableEq, Repr

/-- The goroutine that calls `DataSignerMd5` under the mutex: at `mu.Lock()`, holding the lock
before the call, inside the call, at `mu.Unlock()`, at `DataSignerCrc32(md5)`, blocked on the
send, gone. -/
inductive Md5 where
  | lock
  | call
  | running
  | unlock (m : Str)
  | crc (m : Str)
  | send (v : Str)
  | done
deriving DecidableEq, Repr

/-- The per-item goroutine: at `<-res1`, at `<-res2`, blocked on `out <- ...`, at the deferred
`wg.Done()`, gone. -/
inductive Main where
  | recv1
  | recv2 (a : Str)
  | send (v : Str)
  | exit
  | done
deriving DecidableEq, Repr

/-- One per-item unit of work: the item text and its three goroutines. -/
structure Worker where
  data : Str
  g1 : Crc
  g2 : Md5
  main : Main
deriving DecidableEq, Repr

/-- State of one call of `SingleHash`: the loop, the workers in spawn order, the mutex `mu`
(`true` when locked) and the counter of `wg`. -/
structure State where
  pc : LoopPc
  workers : List Worker
  mu : Bool
  wg : Nat
deriving DecidableEq, Repr

/-- The steps of the goroutines of one worker. -/
inductive Op where
  | crc1
  | res1
  | lock
  | md5call
  | md5ret
  | unlock
  | crc2
  | res2
  | done
deriving DecidableEq, Repr

/-- The internal steps of a call: a step of worker `i`, or `wg.Wait()` returning. -/
inductive Act where
  | op (i : Nat) (o : Op)
  | wait
deriving DecidableEq, Repr

/-- One step of a goroutine of worker `w`, with the mutex and the wait-group counter it shares
with the other workers. -/
def opStep (h : HashService) (w : Worker) (mu : Bool) (wg : Nat) :
    Op → Option (Worker × Bool × Nat)
  | .crc1 =>
    match w.g1 with
    | .call => some ({ w with g1 := .send (h.DataSignerCrc32 w.data) }, mu, wg)
    | _ => none
  | .res1 =>
    match w.g1, w.main with
    | .send v, .recv1 => some ({ w with g1 := .done, main := .recv2 v }, mu, wg)
    | _, _ => none
  | .lock =>
    match w.g2, mu with
    | .lock, false => some ({ w with g2 := .call }, true, wg)
    | _, _ => none
  | .md5call =>
    match w.g2 with
    | .call => some ({ w with g2 := .running }, mu, wg)
    | _ => none
  | .md5ret =>
    match w.g2 with
    | .running => some ({ w with g2 := .unlock (h.DataSignerMd5 w.data) }, mu, wg)
    | _ => none
  | .unlock =>
    match w.g2 with
    | .unlock m => some ({ w with g2 := .crc m }, false, wg)
    | _ => none
  | .crc2 =>
    match w.g2 with
    | .crc m => some ({ w with g2 := .send (h.DataSignerCrc32 m) }, mu, wg)
    | _ => none
  | .res2 =>
    match w.g2, w.main with
    | .send v, .recv2 a => some ({ w with g2 := .done, main := .send (a ++ lit "~" ++ v) }, mu, wg)
    | _, _ => none
  | .done =>
    match w.main with
    | .exit => some ({ w with main := .done }, mu, wg - 1)
    | _ => none

/-- The call as it starts. -/
def init : State := ⟨.loop, [], false, 0⟩

/-- The loop receives `x`: `wg.Add(1)` and a new worker for `fmt.Sprintf("%v", x)`. -/
def recv (s : State) (x : Item) : Option State :=
  if s.pc = .loop then
    some { s with workers := s.workers ++ [⟨sprintV x, .call, .lock, .recv1⟩], wg := s.wg + 1 }
  else none

/-- The loop finds the input feed closed and goes on to `wg.Wait()`. -/
def eof (s : State) : Option State :=
  if s.pc = .loop then some { s with pc := .wait } else none

/-- Worker `i` completes `out <- fmt.Sprintf("%s~%s", ...)`: the value sent and the new state. -/
def send (s : State) (i : Nat) : Option (Item × State) :=
  match s.workers[i]? with
  | some w =>
    match w.main with
    | .send v => some (.str v, { s with workers := s.workers.set i { w with main := .exit } })
    | _ => none
  | none => none

/-- An internal step of the call. -/
def internal (h : HashService) (s : State) : Act → Option State
  | .op i o =>
    match s.workers[i]? with
    | some w =>
      match opStep h w s.mu s.wg o with
      | some (w', mu', wg') => some { s with workers := s.workers.set i w', mu := mu', wg := wg' }
      | none => none
    | none => none
  | .wait => if s.pc = .wait ∧ s.wg = 0 then some { s with pc := .ret } else none

end SingleHash

/-! ## MultiHash -/

namespace MultiHash

/-- One of the six inner goroutines: at `DataSignerCrc32(...)`, at `mu.Lock()`, at
`res[th] = crc`, at `mu.Unlock()`, at the deferred `wgInner.Done()`, gone. -/
inductive Sub where
  | crc
  | lock (c : Str)
  | store (c : Str)
  | unlock
  | exit
  | done
deriving DecidableEq, Repr

/-- The per-item goroutine: at `wgInner.Wait()`, blocked on `out <- strings.Join(res, "")`, at the
deferred `wg.Done()`, gone. -/
inductive Main where
  | wait
  | send (v : Str)
  | exit
  | done
deriving DecidableEq, Repr

/-- One per-item unit of work: the item text, the buffer `res`, the six inner goroutines by
index `th`, the counter of `wgInner`, and the per-item goroutine. -/
structure Worker where
  data : Str
  res : List Str
  subs : List Sub
  wgInner : Nat
  main : Main
deriving DecidableEq, Repr

/-- State of one call of `MultiHash`. -/
structure State where
  pc : LoopPc
  workers : List Worker
  mu : Bool
  wg : Nat
deriving DecidableEq, Repr

/-- The steps of an inner goroutine. -/
inductive SubOp where
  | crc
  | lock
  | store
  | unlock
  | done
deriving DecidableEq, Repr

/-- The internal steps of a call: a step of inner goroutine `th` of worker `i`, worker `i`
passing `wgInner.Wait()` and joining `res`, the deferred `wg.Done()` of worker `i`, or
`wg.Wait()` returning. -/
inductive Act where
  | sub (i th : Nat) (o : SubOp)
  | join (i : Nat)
  | done (i : Nat)
  | wait
deriving DecidableEq, Repr

/-- One step of inner goroutine `th` of worker `w`; `mu` is the mutex of the call. -/
def subStep (h : HashService) (w : Worker) (mu : Bool) (th : Nat) (p : Sub) :
    SubOp → Option (Worker × Bool)
  | .crc =>
    match p with
    | .crc =>
      some ({ w with subs := w.subs.set th (.lock (h.DataSignerCrc32 (sprintD th ++ w.data))) }, mu)
    | _ => none
  | .lock =>
    match p, mu with
    | .lock c, false => some ({ w with subs := w.subs.set th (.store c) }, true)
    | _, _ => none
  | .store =>
    match p with
    | .store c => some ({ w with res := w.res.set th c, subs := w.subs.set th .unlock }, mu)
    | _ => none
  | .unlock =>
    match p with
    | .unlock => some ({ w with subs := w.subs.set th .exit }, false)
    | _ => none
  | .done =>
    match p with
    | .exit => some ({ w with subs := w.subs.set th .done, wgInner := w.wgInner - 1 }, mu)
    | _ => none

/-- The call as it starts. -/
def init : State := ⟨.loop, [], false, 0⟩

/-- A worker as the loop body leaves it: `res := make([]string, 6)` and six inner goroutines
started, each after a `wgInner.Add(1)`. -/
def newWorker (data : Str) : Worker :=
  ⟨data, List.replicate 6 [], List.replicate 6 .crc, 6, .wait⟩

/-- The loop receives `x`: `wg.Add(1)` and a new worker for `fmt.Sprintf("%v", x)`. -/
def recv (s : State) (x : Item) : Option State :=
  if s.pc = .loop then
    some { s with workers := s.workers ++ [newWorker (sprintV x)], wg := s.wg + 1 }
  else none

/-- The loop finds the input feed closed and goes on to `wg.Wait()`. -/
def eof (s : State) : Option State :=
  if s.pc = .loop then some { s with pc := .wait } else none

/-- Worker `i` completes `out <- strings.Join(res, "")`. -/
def send (s : State) (i : Nat) : Option (Item × State) :=
  match s.workers[i]? with
  | some w =>
    match w.main with
    | .send v => some (.str v, { s with workers := s.workers.set i { w with main := .exit } })
    | _ => none
  | none => none

/-- An internal step of the call. -/
def internal (h : HashService) (s : State) : Act → Option State
  | .sub i th o =>
    match s.workers[i]? with
    | some w =>
      match w.subs[th]? with
      | some p =>
        match subStep h w s.mu th p o with
        | some (w', mu') => some { s with workers := s.workers.set i w', mu := mu' }
        | none => none
      | none => none
    | none => none
  | .join i =>
    match s.workers[i]? with
    | some w =>
      match w.main with
      | .wait =>
        if w.wgInner = 0 then
          some { s with workers := s.workers.set i { w with main := .send (stringsJoin w.res []) } }
        else none
      | _ => none
    | none => none
  | .done i =>
    match s.workers[i]? with
    | some w =>
      match w.main with
      | .exit =>
        some { s with workers := s.workers.set i { w with main := .done }, wg := s.wg - 1 }
      | _ => none
    | none => none
  | .wait => if s.pc = .wait ∧ s.wg = 0 then some { s with pc := .ret } else none

end MultiHash

/-! ## CombineResults -/

namespace CombineResults

/-- State of one call of `CombineResults`: ranging over `in` with the slice `arr` collected so
far, blocked on `out <- strings.Join(arr, "_")` after `sort.Strings(arr)`, returned. -/
inductive State where
  | loop (arr : List Str)
  | send (v : Str)
  | ret
deriving DecidableEq, Repr

/-- The call as it starts: `arr := make([]string, 0)`. -/
def init : State := .loop []

/-- The loop receives `x`: `arr = append(arr, fmt.Sprintf("%v", x))`. -/
def recv (s : State) (x : Item) : Option State :=
  match s with
  | .loop arr => some (.loop (arr ++ [sprintV x]))
  | _ => none

/-- The loop finds the input feed closed: `arr` is sorted and joined, the send is next. -/
def eof (s : State) : Option State :=
  match s with
  | .loop arr => some (.send (stringsJoin (sortStrings arr) (lit "_")))
  | _ => none

/-- The send `out <- strings.Join(arr, "_")` completes and the function returns. -/
def send (s : State) : Option (Item × State) :=
  match s with
  | .send v => some (.str v, .ret)
  | _ => none

end CombineResults

/-! ## Stage functions -/

/-- State of a running stage function (a `job`). -/
inductive Job where
  | gen (rest : List Item)
  | single (s : SingleHash.State)
  | multi (s : MultiHash.State)
  | combine (s : CombineResults.State)
  | sink (got : List Item) (returned : Bool)
deriving DecidableEq, Repr

/-- An internal step of a stage function. -/
inductive JobAct where
  | single (a : SingleHash.Act)
  | multi (a : MultiHash.Act)
deriving DecidableEq, Repr

namespace Job

/-- Modelled from the spec: the first stage, which src/ does not hold; it has no input feed and
sends a fixed enumerated input set `xs` on its output feed, then returns. -/
def generator (xs : List Item) : Job := .gen xs

/-- Modelled from the spec: a consumer stage after the last signer stage, which src/ does not
hold; it ranges over its input feed, keeps what it receives and returns when the feed is
closed. -/
def collector : Job := .sink [] false

/-- The stage function has returned. -/
def returned : Job → Bool
  | .gen rest => rest.isEmpty
  | .single s => decide (s.pc = .ret)
  | .multi s => decide (s.pc = .ret)
  | .combine s => decide (s = .ret)
  | .sink _ r => r

/-- The stage function receives `x` from its input feed. -/
def recv : Job → Item → Option Job
  | .gen _, _ => none
  | .single s, x => (SingleHash.recv s x).map .single
  | .multi s, x => (MultiHash.recv s x).map .multi
  | .combine s, x => (CombineResults.recv s x).map .combine
  | .sink got r, x => if r then none else some (.sink (got ++ [x]) false)

/-- The stage function finds its input feed closed. -/
def eof : Job → Option Job
  | .gen _ => none
  | .single s => (SingleHash.eof s).map .single
  | .multi s => (MultiHash.eof s).map .multi
  | .combine s => (CombineResults.eof s).map .combine
  | .sink got r => if r then none else some (.sink got true)

/-- Goroutine `i` of the stage function completes a send on the output feed: the value and the
state afterwards. -/
def send : Job → Nat → Option (Item × Job)
  | .gen (x :: rest), 0 => some (x, .gen rest)
  | .gen _, _ => none
  | .single s, i => (SingleHash.send s i).map (fun r => (r.1, .single r.2))
  | .multi s, i => (MultiHash.send s i).map (fun r => (r.1, .multi r.2))
  | .combine s, 0 => (CombineResults.send s).map (fun r => (r.1, .combine r.2))
  | .combine _, _ => none
  | .sink _ _, _ => none

/-- An internal step of the stage function. -/
def internal (h : HashService) : Job → JobAct → Option Job
  | .single s, .single a => (SingleHash.internal h s a).map .single
  | .multi s, .multi a => (MultiHash.internal h s a).map .multi
  | _, _ => none

end Job

/-- The stage functions a pipeline is built from. -/
inductive Stage where
  | generator (xs : List Item)
  | SingleHash
  | MultiHash
  | CombineResults
  | collector
deriving DecidableEq, Repr

/-- The state in which a stage function starts. -/
def Stage.start : Stage → Job
  | .generator xs => Job.generator xs
  | .SingleHash => .single SingleHash.init
  | .MultiHash => .multi MultiHash.init
  | .CombineResults => .combine CombineResults.init
  | .collector => Job.collector

/-! ## ExecutePipeline -/

namespace ExecutePipeline

/-- Where the goroutine `go func(j, in, out)` of a stage stands: running `j(in, out)` or at the
deferred `wg.Done()`; past `wg.Done()` and at the deferred `close(out)`; finished, `out` closed. -/
inductive Phase where
  | running
  | signalled
  | finished
deriving DecidableEq, Repr

/-- A launched stage: the state of its stage function and of the goroutine around it. The output
feed of the stage is closed exactly when the phase is `finished`. -/
structure Node where
  job : Job
  phase : Phase
deriving DecidableEq, Repr

/-- State of one call of `ExecutePipeline`: the jobs the `for` loop has not launched yet, the
launched stages in order (stage `k` sends on feed `k`, stage `k + 1` receives from it), the
counter of `wg`, and whether `ExecutePipeline` has returned. -/
structure State where
  todo : List Job
  nodes : List Node
  wg : Nat
  returned : Bool
deriving DecidableEq, Repr

/-- The steps of a call of `ExecutePipeline`. -/
inductive Act where
  | spawn
  | job (k : Nat) (a : JobAct)
  | pass (k i : Nat)
  | eof (k : Nat)
  | done (k : Nat)
  | close (k : Nat)
  | wait
deriving DecidableEq, Repr

/-- The call as it starts, on the given stage functions. -/
def init (stages : List Stage) : State := ⟨stages.map Stage.start, [], 0, false⟩

/-- One step.
* `spawn`: one iteration of the `for` loop: `wg.Add(1)` and `go func(j, in, out)`.
* `job k a`: an internal step of stage function `k`.
* `pass k i`: goroutine `i` of stage `k` sends on feed `k` and stage `k + 1` receives.
* `eof k`: stage `k + 1` finds feed `k` closed.
* `done k`: stage function `k` has returned and the deferred `wg.Done()` runs.
* `close k`: the deferred `close(out)` of stage `k` runs.
* `wait`: the loop is over and `wg.Wait()` returns.

The input feed of stage `0` is the nil channel: nothing is ever received from it and it is never
found closed. The output feed of the last stage has no receiver. -/
def step (h : HashService) (s : State) : Act → Option State
  | .spawn =>
    match s.todo with
    | j :: rest =>
      some { s with todo := rest, nodes := s.nodes ++ [⟨j, .running⟩], wg := s.wg + 1 }
    | [] => none
  | .job k a =>
    match s.nodes[k]? with
    | some n =>
      match n.job.internal h a with
      | some j => some { s with nodes := s.nodes.set k { n with job := j } }
      | none => none
    | none => none
  | .pass k i =>
    match s.nodes[k]?, s.nodes[k + 1]? with
    | some n, some m =>
      match n.job.send i with
      | some (x, j) =>
        match m.job.recv x with
        | some j' =>
          some { s with nodes := (s.nodes.set k { n with job := j }).set (k + 1) { m with job := j' } }
        | none => none
      | none => none
    | _, _ => none
  | .eof k =>
    match s.nodes[k]?, s.nodes[k + 1]? with
    | some n, some m =>
      if n.phase = .finished then
        match m.job.eof with
        | some j' => some { s with nodes := s.nodes.set (k + 1) { m with job := j' } }
        | none => none
      else none
    | _, _ => none
  | .done k =>
    match s.nodes[k]? with
    | some n =>
      if n.phase = .running ∧ n.job.returned = true then
        some { s with nodes := s.nodes.set k { n with phase := .signalled }, wg := s.wg - 1 }
      else none
    | none => none
  | .close k =>
    match s.nodes[k]? with
    | some n =>
      if n.phase = .signalled then
        some { s with nodes := s.nodes.set k { n with phase := .finished } }
      else none
    | none => none
  | .wait =>
    if s.todo = [] ∧ s.wg = 0 ∧ s.returned = false then some { s with returned := true } else none

/-- What the collector at the end of the pipeline has received so far, in order of arrival. -/
def State.collected (s : State) : List Item :=
  match s.nodes.getLast? with
  | some ⟨.sink got _, _⟩ => got
  | _ => []

/-- Run a schedule: the actions in order; `none` when one of them is not enabled. -/
def exec (h : HashService) (s : State) : List Act → Option State
  | [] => some s
  | a :: rest =>
    match step h s a with
    | some s' => exec h s' rest
    | none => none

end ExecutePipeline


/-! ## Invariants and measures: SingleHash -/

namespace SingleHash

/-- The string `SingleHash` owes for an item text: `crc32(data) ~ crc32(md5(data))`. -/
def digest (h : HashService) (data : Str) : Str :=
  h.DataSignerCrc32 data ++ lit "~" ++ h.DataSignerCrc32 (h.DataSignerMd5 data)

/-- The worker has not run its `wg.Done()` yet (as a count). -/
def Worker.live (w : Worker) : Nat :=
  match w.main with
  | .done => 0
  | _ => 1

/-- The worker has not completed its send on `out` yet (as a count). -/
def Worker.holds (w : Worker) : Nat :=
  match w.main with
  | .recv1 => 1
  | .recv2 _ => 1
  | .send _ => 1
  | _ => 0

/-- The worker is between `mu.Lock()` and `mu.Unlock()` (as a count). -/
def Worker.crit (w : Worker) : Nat :=
  match w.g2 with
  | .call => 1
  | .running => 1
  | .unlock _ => 1
  | _ => 0

/-- The worker has a `DataSignerMd5` call in flight (as a count). -/
def Worker.inMd5 (w : Worker) : Nat :=
  match w.g2 with
  | .running => 1
  | _ => 0

/-- Steps the three goroutines of a worker still have to take. -/
def Worker.size (w : Worker) : Nat :=
  (match w.g1 with
    | .call => 2
    | .send _ => 1
    | .done => 0) +
  (match w.g2 with
    | .lock => 6
    | .call => 5
    | .running => 4
    | .unlock _ => 3
    | .crc _ => 2
    | .send _ => 1
    | .done => 0) +
  (match w.main with
    | .recv1 => 4
    | .recv2 _ => 3
    | .send _ => 2
    | .exit => 1
    | .done => 0)

/-- The values a worker holds are the ones computed from its item text, and a goroutine that is
still awaited has not gone. -/
def Worker.OK (h : HashService) (w : Worker) : Prop :=
  (match w.g1 with
    | .send v => v = h.DataSignerCrc32 w.data
    | _ => True) ∧
  (match w.g2 with
    | .unlock m => m = h.DataSignerMd5 w.data
    | .crc m => m = h.DataSignerMd5 w.data
    | .send v => v = h.DataSignerCrc32 (h.DataSignerMd5 w.data)
    | _ => True) ∧
  (match w.main with
    | .recv1 => w.g1 ≠ .done ∧ w.g2 ≠ .done
    | .recv2 a => a = h.DataSignerCrc32 w.data ∧ w.g1 = .done ∧ w.g2 ≠ .done
    | .send v => v = digest h w.data ∧ w.g1 = .done ∧ w.g2 = .done
    | _ => w.g1 = .done ∧ w.g2 = .done)

/-- The invariant of a call of `SingleHash`. -/
structure Good (h : HashService) (s : State) : Prop where
  wg_eq : s.wg = (s.workers.map Worker.live).sum
  mu_eq : (s.workers.map Worker.crit).sum = s.mu.toNat
  ret_wg : s.pc = .ret → s.wg = 0
  ok : ∀ w ∈ s.workers, w.OK h

/-- Steps the call still has to take, when a value sent downstream weighs `W`. -/
def State.size (W : Nat) (s : State) : Nat :=
  (match s.pc with
    | .loop => 2
    | .wait => 1
    | .ret => 0) +
  (s.workers.map (fun w => w.size + w.holds * W)).sum

/-- The value a worker still has to send on `out`, if any. -/
def Worker.owed (h : HashService) (w : Worker) : Multiset Item :=
  Multiset.replicate w.holds (Item.str (digest h w.data))

/-- The values the workers of the call still have to send on `out`. -/
def State.owed (h : HashService) (s : State) : Multiset Item :=
  (s.workers.map (Worker.owed h)).sum

/-- Number of `DataSignerMd5` calls of this call of `SingleHash` that are in flight. -/
def State.inMd5 (s : State) : Nat := (s.workers.map Worker.inMd5).sum

end SingleHash

/-! ## Invariants and measures: MultiHash -/

namespace MultiHash

/-- The hash inner goroutine `th` computes for an item text: `crc32(th ++ data)`. -/
def part (h : HashService) (data : Str) (th : Nat) : Str :=
  h.DataSignerCrc32 (sprintD th ++ data)

/-- The string `MultiHash` owes for an item text: the six hashes in index order. -/
def wide (h : HashService) (data : Str) : Str :=
  part h data 0 ++ part h data 1 ++ part h data 2 ++ part h data 3 ++ part h data 4 ++
    part h data 5

/-- The inner goroutine has not run its `wgInner.Done()` yet (as a count). -/
def Sub.live : Sub → Nat
  | .done => 0
  | _ => 1

/-- The inner goroutine is between `mu.Lock()` and `mu.Unlock()` (as a count). -/
def Sub.crit : Sub → Nat
  | .store _ => 1
  | .unlock => 1
  | _ => 0

/-- Steps an inner goroutine still has to take. -/
def Sub.size : Sub → Nat
  | .crc => 5
  | .lock _ => 4
  | .store _ => 3
  | .unlock => 2
  | .exit => 1
  | .done => 0

/-- The value inner goroutine `th` carries, or the slot it has written, is its hash. -/
def Sub.OK (h : HashService) (data : Str) (res : List Str) (th : Nat) : Sub → Prop
  | .crc => True
  | .lock c => c = part h data th
  | .store c => c = part h data th
  | _ => res[th]? = some (part h data th)

/-- The worker has not run its `wg.Done()` yet (as a count). -/
def Worker.live (w : Worker) : Nat :=
  match w.main with
  | .done => 0
  | _ => 1

/-- The worker has not completed its send on `out` yet (as a count). -/
def Worker.holds (w : Worker) : Nat :=
  match w.main with
  | .wait => 1
  | .send _ => 1
  | _ => 0

/-- Number of inner goroutines of the worker that hold the mutex. -/
def Worker.crit (w : Worker) : Nat := (w.subs.map Sub.crit).sum

/-- Steps the goroutines of a worker still have to take. -/
def Worker.size (w : Worker) : Nat :=
  (w.subs.map Sub.size).sum +
  (match w.main with
    | .wait => 3
    | .send _ => 2
    | .exit => 1
    | .done => 0)

/-- The invariant of a worker. -/
structure Worker.OK (h : HashService) (w : Worker) : Prop where
  subs_len : w.subs.length = 6
  res_len : w.res.length = 6
  wg_eq : w.wgInner = (w.subs.map Sub.live).sum
  sub_ok : ∀ th p, w.subs[th]? = some p → Sub.OK h w.data w.res th p
  main_ok : ∀ v, w.main = .send v → v = wide h w.data
  main_wg : w.main ≠ .wait → w.wgInner = 0

/-- The value a worker still has to send on `out`, if any. -/
def Worker.owed (h : HashService) (w : Worker) : Multiset Item :=
  Multiset.replicate w.holds (Item.str (wide h w.data))

/-- The invariant of a call of `MultiHash`. -/
structure Good (h : HashService) (s : State) : Prop where
  wg_eq : s.wg = (s.workers.map Worker.live).sum
  mu_eq : (s.workers.map Worker.crit).sum = s.mu.toNat
  ret_wg : s.pc = .ret → s.wg = 0
  ok : ∀ w ∈ s.workers, w.OK h

/-- Steps the call still has to take, when a value sent downstream weighs `W`. -/
def State.size (W : Nat) (s : State) : Nat :=
  (match s.pc with
    | .loop => 2
    | .wait => 1
    | .ret => 0) +
  (s.workers.map (fun w => w.size + w.holds * W)).sum

/-- The values the workers of the call still have to send on `out`. -/
def State.owed (h : HashService) (s : State) : Multiset Item :=
  (s.workers.map (Worker.owed h)).sum

end MultiHash

/-! ## Invariants and measures: stage functions -/

instance : IsTotal Str StrLE := ⟨by
  intro a
  induction a with
  | nil => intro b; exact Or.inl rfl
  | cons x xs ih =>
    intro b
    cases b with
    | nil => exact Or.inr rfl
    | cons y ys =>
      simp only [StrLE, strLe]
      rcases Nat.lt_trichotomy x.val y.val with hlt | heq | hgt
      · simp [hlt]
      · have h1 : ¬ x.val < y.val := by omega
        have h2 : ¬ y.val < x.val := by omega
        simp only [h1, h2, if_false]
        exact ih ys
      · simp [hgt]⟩

instance : IsTrans Str StrLE := ⟨by
  intro a
  induction a with
  | nil => intro b c _ _; rfl
  | cons x xs ih =>
    intro b c hab hbc
    cases b with
    | nil => simp [StrLE, strLe] at hab
    | cons y ys =>
      cases c with
      | nil => simp [StrLE, strLe] at hbc
      | cons z zs =>
        simp only [StrLE, strLe] at hab hbc ⊢
        by_cases h1 : x.val < y.val
        · by_cases h2 : y.val < z.val
          · have : x.val < z.val := by omega
            simp [this]
          · by_cases h3 : z.val < y.val
            · simp [h2, h3] at hbc
            · have : x.val < z.val := by omega
              simp [this]
        · by_cases h1' : y.val < x.val
          · simp [h1, h1'] at hab
          · simp only [h1, h1', if_false] at hab
            by_cases h2 : y.val < z.val
            · have : x.val < z.val := by omega
              simp [this]
            · by_cases h3 : z.val < y.val
              · simp [h2, h3] at hbc
              · simp only [h2, h3, if_false] at hbc
                have e1 : ¬ x.val < z.val := by omega
                have e2 : ¬ z.val < x.val := by omega
                simp only [e1, e2, if_false]
                exact ih ys zs hab hbc⟩

instance : IsAntisymm Str StrLE := ⟨by
  intro a
  induction a with
  | nil =>
    intro b _ hba
    cases b with
    | nil => rfl
    | cons y ys => simp [StrLE, strLe] at hba
  | cons x xs ih =>
    intro b hab hba
    cases b with
    | nil => simp [StrLE, strLe] at hab
    | cons y ys =>
      simp only [StrLE, strLe] at hab hba
      by_cases h1 : x.val < y.val
      · have : ¬ y.val < x.val := by omega
        simp [h1, this] at hba
      · by_cases h2 : y.val < x.val
        · simp [h1, h2] at hab
        · simp only [h1, h2, if_false] at hab hba
          have : x = y := Fin.ext (by omega)
          rw [this, ih ys hab hba]⟩

namespace Job

/-- The invariant of a running stage function. -/
def Good (h : HashService) : Job → Prop
  | .single s => SingleHash.Good h s
  | .multi s => MultiHash.Good h s
  | _ => True

/-- The stage function is still ranging over its input feed. -/
def inLoop : Job → Bool
  | .gen _ => false
  | .single s => decide (s.pc = .loop)
  | .multi s => decide (s.pc = .loop)
  | .combine (.loop _) => true
  | .combine _ => false
  | .sink _ r => !r

/-- Which stage function the job is a run of, as a number. -/
def tag : Job → Nat
  | .gen _ => 0
  | .single _ => 1
  | .multi _ => 2
  | .combine _ => 3
  | .sink _ _ => 4

/-- Steps the stage function still has to take, when a value sent downstream weighs `W`. -/
def size (W : Nat) : Job → Nat
  | .gen rest => rest.length * (1 + W)
  | .single s => s.size W
  | .multi s => s.size W
  | .combine (.loop _) => 2 + W
  | .combine (.send _) => 1 + W
  | .combine .ret => 0
  | .sink _ r => if r then 0 else 1

/-- Everything the stage function will have sent on its output feed from now on, when `inc` is
everything it will still receive. The collector, which sends nothing, is given what it has got
and will get. -/
def emits (h : HashService) : Job → Multiset Item → Multiset Item
  | .gen rest, _ => (rest : Multiset Item)
  | .single s, inc =>
    s.owed h +
      (if s.pc = .loop then inc.map (fun x => Item.str (SingleHash.digest h (sprintV x))) else 0)
  | .multi s, inc =>
    s.owed h +
      (if s.pc = .loop then inc.map (fun x => Item.str (MultiHash.wide h (sprintV x))) else 0)
  | .combine (.loop arr), inc =>
    {Item.str (stringsJoin (Multiset.sort StrLE ((arr : Multiset Str) + inc.map sprintV))
      (lit "_"))}
  | .combine (.send v), _ => {Item.str v}
  | .combine .ret, _ => 0
  | .sink got r, inc => (got : Multiset Item) + (if r then 0 else inc)

end Job

/-- Which stage function it is, as a number. -/
def Stage.tag : Stage → Nat
  | .generator _ => 0
  | .SingleHash => 1
  | .MultiHash => 2
  | .CombineResults => 3
  | .collector => 4

/-- Steps a stage function takes for one value it receives, the sending of its own result
included, when a value sent downstream weighs `W`. -/
def Stage.cost : Stage → Nat → Nat
  | .SingleHash, W => 12 + W
  | .MultiHash, W => 33 + W
  | _, _ => 0

/-- Weight of a value sent into the given stages: the steps it causes in them. -/
def outW : List Stage → Nat
  | [] => 0
  | t :: rest => t.cost (outW rest)

/-! ## Invariants and measures: ExecutePipeline -/

namespace ExecutePipeline

/-- The stage goroutine has not run its `wg.Done()` yet (as a count). -/
def Phase.live : Phase → Nat
  | .running => 1
  | _ => 0

/-- Steps the wrapper of a stage goroutine still has to take. -/
def Phase.size : Phase → Nat
  | .running => 2
  | .signalled => 1
  | .finished => 0

/-- The invariant of a call of `ExecutePipeline` on `stages`. -/
structure PipeInv (h : HashService) (stages : List Stage) (s : State) : Prop where
  good : ∀ n ∈ s.nodes, n.job.Good h
  ret : ∀ n ∈ s.nodes, n.phase ≠ .running → n.job.returned = true
  wg_eq : s.wg = (s.nodes.map (fun n => n.phase.live)).sum
  wait : s.returned = true → s.todo = [] ∧ s.wg = 0
  adj : ∀ (k : Nat) (n m : Node), s.nodes[k]? = some n → s.nodes[k + 1]? = some m → m.job.tag ≠ 0 →
    m.job.inLoop = false → n.phase = .finished
  todo_eq : s.todo = (stages.drop s.nodes.length).map Stage.start
  shape : ∀ (k : Nat) (n : Node), s.nodes[k]? = some n →
    ∃ st : Stage, stages[k]? = some st ∧ n.job.tag = st.tag

/-- Steps stage `k` still has to take: its wrapper and its stage function. -/
def nodeSize (stages : List Stage) (k : Nat) (n : Node) : Nat :=
  n.phase.size + n.job.size (outW (stages.drop (k + 1)))

/-- Steps the launched stages still have to take, the first of them being stage `k`. -/
def potNodes (stages : List Stage) : Nat → List Node → Nat
  | _, [] => 0
  | k, n :: ns => nodeSize stages k n + potNodes stages (k + 1) ns

/-- Steps the stages not launched yet will take, the first of them being stage `k`. -/
def potTodo (stages : List Stage) : Nat → List Job → Nat
  | _, [] => 0
  | k, j :: js => 3 + j.size (outW (stages.drop (k + 1))) + potTodo stages (k + 1) js

/-- An upper bound on the number of steps the call can still take. -/
def State.size (stages : List Stage) (s : State) : Nat :=
  (if s.returned then 0 else 1) + potNodes stages 0 s.nodes +
    potTodo stages s.nodes.length s.todo

/-- The stage functions of a state in pipeline order, launched or not. -/
def State.jobs (s : State) : List Job := s.nodes.map (fun n => n.job) ++ s.todo

/-- Everything that will have left the last of the given stage functions from now on, when `inc`
is everything that will still enter the first. -/
def flow (h : HashService) : List Job → Multiset Item → Multiset Item
  | [], inc => inc
  | j :: rest, inc => flow h rest (j.emits h inc)

/-- A pipeline that starts with a generator, ends with a collector, and has signer stages in
between. -/
def WellFormed (stages : List Stage) : Prop :=
  ∃ xs middle, stages = .generator xs :: (middle ++ [.collector]) ∧
    ∀ st ∈ middle, st = .SingleHash ∨ st = .MultiHash ∨ st = .CombineResults

/-- Number of `DataSignerMd5` calls in flight in the whole process. -/
def State.inMd5 (s : State) : Nat :=
  (s.nodes.map (fun n =>
    match n.job with
    | .single t => t.inMd5
    | _ => 0)).sum

/-- Whether feed `k` is closed, as a count. -/
def State.closed (s : State) (k : Nat) : Nat :=
  match s.nodes[k]? with
  | some n => if n.phase = .finished then 1 else 0
  | none => 0

end ExecutePipeline

/-! ## Sample runs -/

/-- The stub hash service of the test plan: `fastHash(x) = "F(" + x + ")"` and
`slowHash(x) = "S(" + x + ")"`. -/
def stubHash : HashService :=
  ⟨fun s => lit "F(" ++ s ++ lit ")", fun s => lit "S(" ++ s ++ lit ")"⟩

namespace ExecutePipeline

/-- All steps of worker `i` of the `SingleHash` at stage `k`, up to its send on `out`. -/
def singleRun (k i : Nat) : List Act :=
  [SingleHash.Op.crc1, .res1, .lock, .md5call, .md5ret, .unlock, .crc2, .res2].map
    (fun o => Act.job k (.single (.op i o)))

/-- All steps of inner goroutine `th` of worker `i` of the `MultiHash` at stage `k`. -/
def subRun (k i th : Nat) : List Act :=
  [MultiHash.SubOp.crc, .lock, .store, .unlock, .done].map
    (fun o => Act.job k (.multi (.sub i th o)))

/-- All steps of worker `i` of the `MultiHash` at stage `k`, up to its send on `out`; the inner
goroutines complete in the order `ths`. -/
def multiRun (k i : Nat) (ths : List Nat) : List Act :=
  ths.flatMap (subRun k i) ++ [.job k (.multi (.join i))]

/-- Stage `k` ends (`wg.Done()`, `close(out)`) and stage `k + 1` finds its input feed closed. -/
def finish (k : Nat) : List Act := [.done k, .close k, .eof k]

/-- A complete run of `generator ["b", "a"] → CombineResults → collector`. -/
def runCombine : List Act :=
  [.spawn, .spawn, .spawn, .pass 0 0, .pass 0 0] ++ finish 0 ++ [.pass 1 0] ++ finish 1 ++
    [.done 2, .close 2, .wait]

/-- A complete run of `generator [7] → MultiHash → collector`. -/
def runMulti : List Act :=
  [.spawn, .spawn, .spawn, .pass 0 0] ++ finish 0 ++ multiRun 1 0 [2, 0, 4, 3, 1, 5] ++
    [.pass 1 0, .job 1 (.multi (.done 0)), .job 1 (.multi .wait)] ++ finish 1 ++
    [.done 2, .close 2, .wait]

/-- A complete run of `generator [7] → SingleHash → collector`. -/
def runSingle : List Act :=
  [.spawn, .spawn, .spawn, .pass 0 0] ++ finish 0 ++ singleRun 1 0 ++
    [.pass 1 0, .job 1 (.single (.op 0 .done)), .job 1 (.single .wait)] ++ finish 1 ++
    [.done 2, .close 2, .wait]

/-- A complete run of the five-stage pipeline on two items, every stage handling the first item
first. -/
def runChainA : List Act :=
  [.spawn, .spawn, .spawn, .spawn, .spawn, .pass 0 0, .pass 0 0] ++ finish 0 ++
    singleRun 1 0 ++ singleRun 1 1 ++
    [.pass 1 0, .pass 1 1, .job 1 (.single (.op 0 .done)), .job 1 (.single (.op 1 .done)),
      .job 1 (.single .wait)] ++ finish 1 ++
    multiRun 2 0 [0, 1, 2, 3, 4, 5] ++ multiRun 2 1 [0, 1, 2, 3, 4, 5] ++
    [.pass 2 0, .pass 2 1, .job 2 (.multi (.done 0)), .job 2 (.multi (.done 1)),
      .job 2 (.multi .wait)] ++ finish 2 ++
    [.pass 3 0] ++ finish 3 ++ [.done 4, .close 4, .wait]

/-- A complete run of the five-stage pipeline on two items, `SingleHash` and `MultiHash` each
sending the result of their second item first, the inner goroutines of `MultiHash` completing in
descending index order. -/
def runChainB : List Act :=
  [.spawn, .spawn, .pass 0 0, .spawn, .pass 0 0, .spawn, .spawn] ++ finish 0 ++
    singleRun 1 1 ++ [.pass 1 1] ++ singleRun 1 0 ++
    [.pass 1 0, .job 1 (.single (.op 1 .done)), .job 1 (.single (.op 0 .done)),
      .job 1 (.single .wait)] ++ finish 1 ++
    multiRun 2 1 [5, 4, 3, 2, 1, 0] ++ [.pass 2 1] ++ multiRun 2 0 [5, 4, 3, 2, 1, 0] ++
    [.pass 2 0, .job 2 (.multi (.done 1)), .job 2 (.multi (.done 0)),
      .job 2 (.multi .wait)] ++ finish 2 ++
    [.pass 3 0] ++ finish 3 ++ [.done 4, .wait, .close 4]

/-- A run of `generator [0, 1] → SingleHash → SingleHash → collector` up to a state in which a
worker of each `SingleHash` is inside `DataSignerMd5`. -/
def runTwoSingle : List Act :=
  [.spawn, .spawn, .spawn, .spawn, .pass 0 0, .pass 0 0] ++ singleRun 1 0 ++
    [.pass 1 0, .job 2 (.single (.op 0 .lock)), .job 2 (.single (.op 0 .md5call)),
      .job 1 (.single (.op 1 .lock)), .job 1 (.single (.op 1 .md5call))]

/-- A run of `generator [0, 1] → SingleHash → collector` up to a state in which the second
worker is inside `DataSignerMd5`. -/
def runInMd5 : List Act :=
  [.spawn, .spawn, .spawn, .pass 0 0, .pass 0 0, .job 1 (.single (.op 1 .lock)),
    .job 1 (.single (.op 1 .md5call))]

/-- A run of the pipeline made of one generator of nothing, up to the return of
`ExecutePipeline`: the stage is launched, its function returns at once, the deferred
`wg.Done()` runs, and `wg.Wait()` returns. -/
def runEarlyReturn : List Act := [.spawn, .done 0, .wait]

/-- A run of `generator [] → CombineResults`, with `CombineResults` as the last stage: both
stages are launched, the generator ends, and `CombineResults` finds its input feed closed. -/
def runTerminalCombine : List Act := [.spawn, .spawn] ++ finish 0

/-- The state `runTerminalCombine` ends in: the generator has finished, `CombineResults` is
blocked on its send of the empty string, and `ExecutePipeline` is at `wg.Wait()`. -/
def stuckCombine : State :=
  ⟨[], [⟨.gen [], .finished⟩, ⟨.combine (.send []), .running⟩], 1, false⟩

end ExecutePipeline

/-! ## Lists updated at one index -/

theorem sum_map_set {α M : Type} [AddCommMonoid M] (f : α → M) (l : List α) (i : Nat) (a b : α)
    (hi : l[i]? = some a) : ((l.set i b).map f).sum + f a = (l.map f).sum + f b := by
  induction l generalizing i with
  | nil => simp at hi
  | cons x xs ih =>
    cases i with
    | zero =>
      simp only [List.getElem?_cons_zero, Option.some.injEq] at hi
      subst hi
      simp only [List.set_cons_zero, List.map_cons, List.sum_cons]
      abel
    | succ i =>
      simp only [List.getElem?_cons_succ] at hi
      have := ih i hi
      simp only [List.set_cons_succ, List.map_cons, List.sum_cons]
      rw [add_assoc, this, add_assoc]

theorem le_sum_map_of_getElem? {α : Type} (f : α → Nat) (l : List α) (i : Nat) (a : α)
    (hi : l[i]? = some a) : f a ≤ (l.map f).sum := by
  induction l generalizing i with
  | nil => simp at hi
  | cons x xs ih =>
    cases i with
    | zero =>
      simp only [List.getElem?_cons_zero, Option.some.injEq] at hi
      subst hi
      simp
    | succ i =>
      simp only [List.getElem?_cons_succ] at hi
      have := ih i hi
      simp only [List.map_cons, List.sum_cons]
      omega

theorem forall_mem_set {α : Type} (P : α → Prop) (l : List α) (i : Nat) (b : α)
    (hl : ∀ x ∈ l, P x) (hb : P b) : ∀ x ∈ l.set i b, P x := by
  intro x hx
  rcases List.mem_or_eq_of_mem_set hx with h | h
  · exact hl x h
  · exact h ▸ hb

theorem exists_of_sum_map_ne_zero {α : Type} (f : α → Nat) (l : List α)
    (hl : (l.map f).sum ≠ 0) : ∃ (i : Nat) (a : α), l[i]? = some a ∧ f a ≠ 0 := by
  induction l with
  | nil => simp at hl
  | cons x xs ih =>
    by_cases hx : f x = 0
    · simp only [List.map_cons, List.sum_cons, hx, Nat.zero_add] at hl
      obtain ⟨i, a, hi, ha⟩ := ih hl
      exact ⟨i + 1, a, by simpa using hi, ha⟩
    · exact ⟨0, x, by simp, hx⟩

theorem eq_zero_of_sum_map_eq_zero {α : Type} (f : α → Nat) (l : List α)
    (hl : (l.map f).sum = 0) : ∀ x ∈ l, f x = 0 := by
  induction l with
  | nil => simp
  | cons x xs ih =>
    simp only [List.map_cons, List.sum_cons] at hl
    intro y hy
    rcases List.mem_cons.mp hy with rfl | h
    · omega
    · exact ih (by omega) y h

theorem mem_of_getElem? {α : Type} (l : List α) (i : Nat) (a : α) (hi : l[i]? = some a) :
    a ∈ l := List.mem_iff_getElem?.mpr ⟨i, hi⟩

/-! ## SingleHash: one step of a worker -/

namespace SingleHash

theorem opStep_spec (h : HashService) (w w' : Worker) (mu mu' : Bool) (wg wg' : Nat) (o : Op)
    (hs : opStep h w mu wg o = some (w', mu', wg')) (hok : w.OK h)
    (hc : w.crit ≤ mu.toNat) (hl : w.live ≤ wg) :
    w'.OK h ∧ w'.data = w.data ∧ w'.holds = w.holds ∧
      w'.crit + mu.toNat = w.crit + mu'.toNat ∧ wg' + w.live = wg + w'.live ∧
      w'.live ≤ w.live ∧ w'.size < w.size ∧ w.live = 1 := by
  obtain ⟨data, g1, g2, main⟩ := w
  cases mu <;> cases o <;> simp only [opStep] at hs <;> (try split at hs) <;>
    simp only [Option.some.injEq, Prod.mk.injEq, reduceCtorEq] at hs <;>
    obtain ⟨rfl, rfl, rfl⟩ := hs <;>
    simp_all [Worker.OK, Worker.holds, Worker.crit, Worker.live, Worker.size, digest]
  all_goals first
    | omega
    | (cases main <;> simp_all)

theorem sh_internal_spec (h : HashService) (W : Nat) (s s' : State) (a : Act) (hg : Good h s)
    (hs : internal h s a = some s') :
    Good h s' ∧ s'.size W < s.size W ∧ s'.owed h = s.owed h ∧ (s'.pc = .loop ↔ s.pc = .loop) ∧
      s.pc ≠ .ret := by
  cases a with
  | op i o =>
    simp only [internal] at hs
    split at hs
    · rename_i w hw
      split at hs
      · rename_i w' mu' wg' hop
        simp only [Option.some.injEq] at hs
        subst hs
        have hc : w.crit ≤ s.mu.toNat := by
          rw [← hg.mu_eq]; exact le_sum_map_of_getElem? _ _ _ _ hw
        have hl : w.live ≤ s.wg := by
          rw [hg.wg_eq]; exact le_sum_map_of_getElem? _ _ _ _ hw
        obtain ⟨hok', hd, hh, hcr, hwg, hlv, hsz, hl1⟩ :=
          opStep_spec h w w' s.mu mu' s.wg wg' o hop (hg.ok w (mem_of_getElem? _ _ _ hw)) hc hl
        have e1 := sum_map_set Worker.live s.workers i w w' hw
        have e2 := sum_map_set Worker.crit s.workers i w w' hw
        have e3 := sum_map_set (fun w => w.size + w.holds * W) s.workers i w w' hw
        have e4 := sum_map_set (Worker.owed h) s.workers i w w' hw
        have e5 := hg.wg_eq
        have e6 := hg.mu_eq
        have hne : s.pc ≠ .ret := by
          intro hr
          have h0 := hg.ret_wg hr
          omega
        refine ⟨⟨?_, ?_, ?_, ?_⟩, ?_, ?_, Iff.rfl, hne⟩
        · simp only; omega
        · simp only; omega
        · intro hr; exact absurd hr hne
        · exact forall_mem_set _ _ _ _ hg.ok hok'
        · simp only [State.size] at e3 ⊢
          rw [hh] at e3
          omega
        · simp only [State.owed]
          have : Worker.owed h w' = Worker.owed h w := by
            simp only [Worker.owed, hd, hh]
          rw [this] at e4
          exact add_right_cancel e4
      · simp at hs
    · simp at hs
  | wait =>
    simp only [internal] at hs
    split at hs
    · rename_i hc
      simp only [Option.some.injEq] at hs
      subst hs
      refine ⟨⟨hg.wg_eq, hg.mu_eq, fun _ => hc.2, hg.ok⟩, ?_, rfl, ?_, ?_⟩
      · simp only [State.size, hc.1]; omega
      · simp [hc.1]
      · simp [hc.1]
    · simp at hs

theorem sh_recv_spec (h : HashService) (W : Nat) (s s' : State) (x : Item) (hg : Good h s)
    (hs : recv s x = some s') :
    Good h s' ∧ s'.size W = s.size W + (12 + W) ∧
      s'.owed h = s.owed h + {Item.str (digest h (sprintV x))} ∧ s.pc = .loop ∧ s'.pc = .loop := by
  simp only [recv] at hs
  split at hs
  · rename_i hc
    simp only [Option.some.injEq] at hs
    subst hs
    refine ⟨⟨?_, ?_, ?_, ?_⟩, ?_, ?_, hc, hc⟩
    · simp [Worker.live, hg.wg_eq]
    · simp [Worker.crit, hg.mu_eq]
    · intro hr; simp [hc] at hr
    · intro w hw
      rcases List.mem_append.mp hw with hw | hw
      · exact hg.ok w hw
      · simp only [List.mem_singleton] at hw
        subst hw
        simp [Worker.OK]
    · simp only [State.size, List.map_append, List.sum_append, List.map_cons, List.map_nil,
        List.sum_cons, List.sum_nil, Worker.size, Worker.holds]
      omega
    · simp [State.owed, Worker.owed, Worker.holds]
  · simp at hs

theorem sh_eof_spec (h : HashService) (W : Nat) (s s' : State) (hg : Good h s)
    (hs : eof s = some s') :
    Good h s' ∧ s'.size W + 1 = s.size W ∧ s'.owed h = s.owed h ∧ s.pc = .loop ∧
      s'.pc = .wait := by
  simp only [eof] at hs
  split at hs
  · rename_i hc
    simp only [Option.some.injEq] at hs
    subst hs
    refine ⟨⟨hg.wg_eq, hg.mu_eq, ?_, hg.ok⟩, ?_, rfl, hc, rfl⟩
    · intro hr; simp at hr
    · simp only [State.size, hc]; omega
  · simp at hs

theorem sh_send_spec (h : HashService) (W : Nat) (s s' : State) (i : Nat) (x : Item)
    (hg : Good h s) (hs : send s i = some (x, s')) :
    Good h s' ∧ s'.size W + 1 + W = s.size W ∧ s'.owed h + {x} = s.owed h ∧ s'.pc = s.pc ∧
      s.pc ≠ .ret := by
  simp only [send] at hs
  split at hs
  · rename_i w hw
    split at hs
    · rename_i v hm
      simp only [Option.some.injEq, Prod.mk.injEq] at hs
      obtain ⟨rfl, rfl⟩ := hs
      have hok := hg.ok w (mem_of_getElem? _ _ _ hw)
      have e1 := sum_map_set Worker.live s.workers i w { w with main := .exit } hw
      have e2 := sum_map_set Worker.crit s.workers i w { w with main := .exit } hw
      have e3 := sum_map_set (fun w => w.size + w.holds * W) s.workers i w
        { w with main := .exit } hw
      have e4 := sum_map_set (Worker.owed h) s.workers i w { w with main := .exit } hw
      have e5 := le_sum_map_of_getElem? Worker.live s.workers i w hw
      have e6 := hg.wg_eq
      simp only [Worker.live, Worker.crit, Worker.size, Worker.holds, Worker.owed, hm] at e1 e2 e3 e4 e5
      simp only [Worker.OK, hm] at hok
      refine ⟨⟨?_, ?_, ?_, ?_⟩, ?_, ?_, rfl, ?_⟩
      · simp only [Worker.live] at e6 ⊢; omega
      · have := hg.mu_eq
        simp only [Worker.crit] at this ⊢; omega
      · intro hr
        have := hg.ret_wg hr
        simp only at hr this
        omega
      · apply forall_mem_set _ _ _ _ hg.ok
        simp only [Worker.OK]
        exact ⟨by simp [hok.2.2.2.1], by simp [hok.2.2.2.2], hok.2.2.2.1, hok.2.2.2.2⟩
      · simp only [State.size, Worker.size, Worker.holds] at e3 ⊢
        omega
      · simp only [State.owed, Worker.owed, Worker.holds]
        simp only [Multiset.replicate_zero, Multiset.replicate_one, add_zero] at e4
        rw [hok.2.2.1]
        exact e4
      · intro hr
        have := hg.ret_wg hr
        omega
    · simp at hs
  · simp at hs

theorem sh_returned_spec (h : HashService) (s : State) (hg : Good h s) (hr : s.pc = .ret) :
    (∀ a, internal h s a = none) ∧ (∀ i, send s i = none) ∧ s.owed h = 0 ∧
      ∀ w ∈ s.workers, w.main = .done := by
  have hdone : ∀ w ∈ s.workers, w.main = .done := by
    intro w hw
    have h0 := hg.ret_wg hr
    rw [hg.wg_eq] at h0
    have := eq_zero_of_sum_map_eq_zero _ _ h0 w hw
    simp only [Worker.live] at this
    split at this
    · assumption
    · omega
  refine ⟨?_, ?_, ?_, hdone⟩
  · intro a
    cases hi : internal h s a with
    | none => rfl
    | some s' => exact absurd hr (sh_internal_spec h 0 s s' a hg hi).2.2.2.2
  · intro i
    cases hi : send s i with
    | none => rfl
    | some r => exact absurd hr (sh_send_spec h 0 s r.2 i r.1 hg hi).2.2.2.2
  · simp only [State.owed]
    apply List.sum_eq_zero
    intro m hm
    obtain ⟨w, hw, rfl⟩ := List.mem_map.mp hm
    simp [Worker.owed, Worker.holds, hdone w hw]

theorem sh_progress (h : HashService) (s : State) (hg : Good h s) (hw : s.pc = .wait) :
    (∃ a s', internal h s a = some s') ∨ (∃ i r, send s i = some r) := by
  by_cases h0 : s.wg = 0
  · exact Or.inl ⟨.wait, { s with pc := .ret }, by simp [internal, hw, h0]⟩
  · rw [hg.wg_eq] at h0
    obtain ⟨i, w, hi, hlive⟩ := exists_of_sum_map_ne_zero _ _ h0
    have hok := hg.ok w (mem_of_getElem? _ _ _ hi)
    have act : ∀ (j : Nat) (u : Worker) (o : Op) (r : Worker × Bool × Nat),
        s.workers[j]? = some u → opStep h u s.mu s.wg o = some r →
        ∃ a s', internal h s a = some s' := by
      intro j u o r hj hr
      exact ⟨.op j o, _, by simp only [internal, hj, hr]; rfl⟩
    obtain ⟨data, g1, g2, main⟩ := w
    cases main with
    | done => simp [Worker.live] at hlive
    | exit => exact Or.inl (act i _ .done _ hi rfl)
    | send v =>
      exact Or.inr ⟨i, _, by simp only [send, hi]; rfl⟩
    | recv1 =>
      cases g1 with
      | call => exact Or.inl (act i _ .crc1 _ hi rfl)
      | send v => exact Or.inl (act i _ .res1 _ hi rfl)
      | done => simp [Worker.OK] at hok
    | recv2 a =>
      cases g2 with
      | done => simp [Worker.OK] at hok
      | send v => exact Or.inl (act i _ .res2 _ hi rfl)
      | crc m => exact Or.inl (act i _ .crc2 _ hi rfl)
      | unlock m => exact Or.inl (act i _ .unlock _ hi rfl)
      | running => exact Or.inl (act i _ .md5ret _ hi rfl)
      | call => exact Or.inl (act i _ .md5call _ hi rfl)
      | lock =>
        cases hmu : s.mu with
        | false => exact Or.inl (act i _ .lock _ hi (by rw [hmu]; rfl))
        | true =>
          have hsum := hg.mu_eq
          rw [hmu] at hsum
          have hne : (s.workers.map Worker.crit).sum ≠ 0 := by rw [hsum]; simp
          obtain ⟨j, u, hj, hcrit⟩ := exists_of_sum_map_ne_zero _ _ hne
          obtain ⟨d', g1', g2', m'⟩ := u
          cases g2' with
          | call => exact Or.inl (act j _ .md5call _ hj rfl)
          | running => exact Or.inl (act j _ .md5ret _ hj rfl)
          | unlock m => exact Or.inl (act j _ .unlock _ hj rfl)
          | lock => simp [Worker.crit] at hcrit
          | crc m => simp [Worker.crit] at hcrit
          | send v => simp [Worker.crit] at hcrit
          | done => simp [Worker.crit] at hcrit

end SingleHash

/-! ## MultiHash: one step of an inner goroutine -/

namespace MultiHash

theorem subStep_spec (h : HashService) (w w' : Worker) (mu mu' : Bool) (th : Nat) (p : Sub)
    (o : SubOp) (hs : subStep h w mu th p o = some (w', mu')) (hp : w.subs[th]? = some p)
    (hok : w.OK h) (hc : p.crit ≤ mu.toNat) :
    w'.OK h ∧ w'.data = w.data ∧ w'.main = w.main ∧
      w'.crit + mu.toNat = w.crit + mu'.toNat ∧ w'.size < w.size ∧ w.main = .wait := by
  have hth : th < w.subs.length := by
    rcases List.getElem?_eq_some.mp hp with ⟨hlt, _⟩
    exact hlt
  have hpok := hok.sub_ok th p hp
  have hmu := Bool.toNat_le mu
  obtain ⟨data, res, subs, wgInner, main⟩ := w
  simp only at hp hth hpok
  have hlive := sum_map_set Sub.live subs th p
  have hcrit := sum_map_set Sub.crit subs th p
  have hsize := sum_map_set Sub.size subs th p
  have hle := le_sum_map_of_getElem? Sub.live subs th p hp
  have key : ∀ (q : Sub) (res' : List Str) (n : Nat),
      (res' = res ∨ ∃ c, res' = res.set th c ∧ Sub.OK h data res' th q) →
      (res' = res → Sub.OK h data res th q) →
      n + p.live = wgInner + q.live → p.live = 1 →
      Worker.OK h ⟨data, res', subs.set th q, n, main⟩ := by
    intro q res' n hres hq hn hp1
    have h1 := hlive q hp
    refine ⟨by simpa using hok.subs_len, ?_, ?_, ?_, ?_, ?_⟩
    · rcases hres with rfl | ⟨c, rfl, _⟩
      · exact hok.res_len
      · simpa using hok.res_len
    · have := hok.wg_eq
      simp only at this h1 ⊢
      omega
    · intro th' p' hp'
      simp only [List.getElem?_set] at hp'
      by_cases e : th = th'
      · subst e
        rw [if_pos rfl, if_pos hth] at hp'
        cases hp'
        rcases hres with rfl | ⟨c, rfl, hq'⟩
        · exact hq rfl
        · exact hq'
      · rw [if_neg e] at hp'
        have hold := hok.sub_ok th' p' hp'
        rcases hres with rfl | ⟨c, rfl, _⟩
        · exact hold
        · cases p' <;> simp only [Sub.OK] at hold ⊢ <;> try exact hold
          all_goals rw [List.getElem?_set_ne e]; exact hold
    · exact hok.main_ok
    · intro hm
      have := hok.main_wg hm
      have := hok.wg_eq
      simp only at *
      omega
  have hres6 : th < res.length := by
    have := hok.res_len; have := hok.subs_len; simp only at *; omega
  have hwait : p.live = 1 → main = .wait := by
    intro h1
    by_contra hm
    have := hok.main_wg hm
    have := hok.wg_eq
    simp only at *
    omega
  cases o <;> simp only [subStep] at hs <;> split at hs <;>
    simp only [Option.some.injEq, Prod.mk.injEq, reduceCtorEq] at hs <;>
    obtain ⟨rfl, rfl⟩ := hs
  · refine ⟨key _ _ _ (Or.inl rfl) (fun _ => rfl) (by simp [Sub.live]) rfl, rfl, rfl, ?_, ?_, ?_⟩
    · have := hcrit (.lock (part h data th)) hp
      simp only [Worker.crit, Sub.crit, part, Bool.toNat_false, Bool.toNat_true] at this hc ⊢; omega
    · have := hsize (.lock (part h data th)) hp
      simp only [Worker.size, Sub.size, part] at this ⊢; omega
    · exact hwait rfl
  · rename_i c
    refine ⟨key _ _ _ (Or.inl rfl) (fun _ => hpok) (by simp [Sub.live]) rfl, rfl, rfl, ?_, ?_, ?_⟩
    · have := hcrit (.store c) hp
      simp only [Worker.crit, Sub.crit, part, Bool.toNat_false, Bool.toNat_true] at this hc ⊢; omega
    · have := hsize (.store c) hp
      simp only [Worker.size, Sub.size, part] at this ⊢; omega
    · exact hwait rfl
  · rename_i c
    have hc' : c = part h data th := hpok
    have hq : Sub.OK h data (res.set th c) th .unlock := by
      simp only [Sub.OK]
      rw [List.getElem?_set_self hres6, hc']
    refine ⟨key _ _ _ (Or.inr ⟨c, rfl, hq⟩) ?_ (by simp [Sub.live]) rfl, rfl, rfl, ?_, ?_, ?_⟩
    · intro e
      rw [← e]; exact hq
    · have := hcrit .unlock hp
      simp only [Worker.crit, Sub.crit, part, Bool.toNat_false, Bool.toNat_true] at this hc ⊢; omega
    · have := hsize .unlock hp
      simp only [Worker.size, Sub.size, part] at this ⊢; omega
    · exact hwait rfl
  · refine ⟨key _ _ _ (Or.inl rfl) (fun _ => hpok) (by simp [Sub.live]) rfl, rfl, rfl, ?_, ?_, ?_⟩
    · have := hcrit .exit hp
      simp only [Worker.crit, Sub.crit, part, Bool.toNat_false, Bool.toNat_true] at this hc ⊢; omega
    · have := hsize .exit hp
      simp only [Worker.size, Sub.size, part] at this ⊢; omega
    · exact hwait rfl
  · have hw := hok.wg_eq
    simp only [Sub.live] at hle
    simp only at hw
    refine ⟨key _ _ _ (Or.inl rfl) (fun _ => hpok) (by simp only [Sub.live]; omega) rfl, rfl, rfl,
      ?_, ?_, ?_⟩
    · have := hcrit .done hp
      simp only [Worker.crit, Sub.crit, part, Bool.toNat_false, Bool.toNat_true] at this hc ⊢; omega
    · have := hsize .done hp
      simp only [Worker.size, Sub.size, part] at this ⊢; omega
    · exact hwait rfl

theorem length_six {α : Type} (l : List α) (hl : l.length = 6) :
    ∃ a b c d e f, l = [a, b, c, d, e, f] := by
  match l, hl with
  | [a, b, c, d, e, f], _ => exact ⟨a, b, c, d, e, f, rfl⟩

theorem join_res (h : HashService) (w : Worker) (hok : w.OK h) (h0 : w.wgInner = 0) :
    stringsJoin w.res [] = wide h w.data := by
  have hall : ∀ th, th < 6 → w.res[th]? = some (part h w.data th) := by
    intro th hth
    have hlt : th < w.subs.length := by rw [hok.subs_len]; exact hth
    have hp : w.subs[th]? = some w.subs[th] := List.getElem?_eq_getElem hlt
    have hz := hok.wg_eq
    rw [h0] at hz
    have hd := eq_zero_of_sum_map_eq_zero _ _ hz.symm _ (mem_of_getElem? _ _ _ hp)
    have hs := hok.sub_ok th _ hp
    cases hq : w.subs[th] with
    | done => rw [hq] at hs; exact hs
    | crc => rw [hq] at hd; simp [Sub.live] at hd
    | lock c => rw [hq] at hd; simp [Sub.live] at hd
    | store c => rw [hq] at hd; simp [Sub.live] at hd
    | unlock => rw [hq] at hd; simp [Sub.live] at hd
    | exit => rw [hq] at hd; simp [Sub.live] at hd
  obtain ⟨a, b, c, d, e, f, hres⟩ := length_six w.res hok.res_len
  have e0 := hall 0 (by omega)
  have e1 := hall 1 (by omega)
  have e2 := hall 2 (by omega)
  have e3 := hall 3 (by omega)
  have e4 := hall 4 (by omega)
  have e5 := hall 5 (by omega)
  rw [hres] at e0 e1 e2 e3 e4 e5 ⊢
  simp only [List.getElem?_cons_zero, List.getElem?_cons_succ, Option.some.injEq] at e0 e1 e2 e3 e4 e5
  subst e0 e1 e2 e3 e4 e5
  simp [stringsJoin, wide]

theorem mh_internal_spec (h : HashService) (W : Nat) (s s' : State) (a : Act) (hg : Good h s)
    (hs : internal h s a = some s') :
    Good h s' ∧ s'.size W < s.size W ∧ s'.owed h = s.owed h ∧ (s'.pc = .loop ↔ s.pc = .loop) ∧
      s.pc ≠ .ret := by
  have common : ∀ (i : Nat) (w w' : Worker) (mu' : Bool) (wg' : Nat),
      s.workers[i]? = some w → w'.OK h → w'.data = w.data → w'.holds = w.holds →
      w'.crit + s.mu.toNat = w.crit + mu'.toNat → wg' + w.live = s.wg + w'.live →
      w'.size < w.size → w.live = 1 →
      Good h ⟨s.pc, s.workers.set i w', mu', wg'⟩ ∧
        State.size W ⟨s.pc, s.workers.set i w', mu', wg'⟩ < s.size W ∧
        State.owed h ⟨s.pc, s.workers.set i w', mu', wg'⟩ = s.owed h ∧
        (s.pc = .loop ↔ s.pc = .loop) ∧ s.pc ≠ .ret := by
    intro i w w' mu' wg' hw hok' hd hh hcr hwg hsz hl1
    have e1 := sum_map_set Worker.live s.workers i w w' hw
    have e2 := sum_map_set Worker.crit s.workers i w w' hw
    have e3 := sum_map_set (fun w => w.size + w.holds * W) s.workers i w w' hw
    have e4 := sum_map_set (Worker.owed h) s.workers i w w' hw
    have e5 := hg.wg_eq
    have e6 := hg.mu_eq
    have e7 := le_sum_map_of_getElem? Worker.live s.workers i w hw
    have hne : s.pc ≠ .ret := by
      intro hr
      have h0 := hg.ret_wg hr
      omega
    refine ⟨⟨?_, ?_, ?_, ?_⟩, ?_, ?_, Iff.rfl, hne⟩
    · simp only; omega
    · simp only; omega
    · intro hr; exact absurd hr hne
    · exact forall_mem_set _ _ _ _ hg.ok hok'
    · simp only [State.size] at e3 ⊢
      rw [hh] at e3
      omega
    · simp only [State.owed]
      have : Worker.owed h w' = Worker.owed h w := by
        simp only [Worker.owed, hd, hh]
      rw [this] at e4
      exact add_right_cancel e4
  cases a with
  | sub i th o =>
    simp only [internal] at hs
    split at hs
    · rename_i w hw
      split at hs
      · rename_i p hp
        split at hs
        · rename_i w' mu' hop
          simp only [Option.some.injEq] at hs
          subst hs
          have hc : p.crit ≤ s.mu.toNat := by
            rw [← hg.mu_eq]
            exact Nat.le_trans (le_sum_map_of_getElem? Sub.crit _ _ _ hp)
              (le_sum_map_of_getElem? Worker.crit _ _ _ hw)
          obtain ⟨hok', hd, hm, hcr, hsz, hwait⟩ :=
            subStep_spec h w w' s.mu mu' th p o hop hp (hg.ok w (mem_of_getElem? _ _ _ hw)) hc
          exact common i w w' mu' s.wg hw hok' hd (by simp only [Worker.holds, hm]) hcr
            (by simp only [Worker.live, hm]) hsz (by simp only [Worker.live, hwait])
        · simp at hs
      · simp at hs
    · simp at hs
  | join i =>
    simp only [internal] at hs
    split at hs
    · rename_i w hw
      have hok := hg.ok w (mem_of_getElem? _ _ _ hw)
      split at hs
      · rename_i hm
        split at hs
        · rename_i h0
          simp only [Option.some.injEq] at hs
          subst hs
          refine common i w _ s.mu s.wg hw ⟨hok.subs_len, hok.res_len, hok.wg_eq, hok.sub_ok, ?_, ?_⟩
            rfl ?_ ?_ ?_ ?_ ?_
          · intro v hv
            simp only [Main.send.injEq] at hv
            rw [← hv]; exact join_res h w hok h0
          · intro _; exact h0
          · simp only [Worker.holds, hm]
          · simp only [Worker.crit]
          · simp only [Worker.live, hm]
          · simp only [Worker.size, hm]; omega
          · simp only [Worker.live, hm]
        · simp at hs
      · simp at hs
    · simp at hs
  | done i =>
    simp only [internal] at hs
    split at hs
    · rename_i w hw
      have hok := hg.ok w (mem_of_getElem? _ _ _ hw)
      split at hs
      · rename_i hm
        simp only [Option.some.injEq] at hs
        subst hs
        have e7 := le_sum_map_of_getElem? Worker.live s.workers i w hw
        have e5 := hg.wg_eq
        simp only [Worker.live, hm] at e7
        refine common i w _ s.mu (s.wg - 1) hw ⟨hok.subs_len, hok.res_len, hok.wg_eq, hok.sub_ok, ?_, ?_⟩
          rfl ?_ ?_ ?_ ?_ ?_
        · intro v hv; simp at hv
        · intro _; exact hok.main_wg (by simp [hm])
        · simp only [Worker.holds, hm]
        · simp only [Worker.crit]
        · simp only [Worker.live, hm]; omega
        · simp only [Worker.size, hm]; omega
        · simp only [Worker.live, hm]
      · simp at hs
    · simp at hs
  | wait =>
    simp only [internal] at hs
    split at hs
    · rename_i hc
      simp only [Option.some.injEq] at hs
      subst hs
      refine ⟨⟨hg.wg_eq, hg.mu_eq, fun _ => hc.2, hg.ok⟩, ?_, rfl, ?_, ?_⟩
      · simp only [State.size, hc.1]; omega
      · simp [hc.1]
      · simp [hc.1]
    · simp at hs

theorem newWorker_ok (h : HashService) (data : Str) : (newWorker data).OK h := by
  refine ⟨rfl, rfl, rfl, ?_, ?_, ?_⟩
  · intro th p hp
    have : p = .crc := by
      have hm := mem_of_getElem? _ _ _ hp
      simp only [newWorker, List.mem_replicate] at hm
      exact hm.2
    subst this
    trivial
  · intro v hv; simp [newWorker] at hv
  · intro hm; simp [newWorker] at hm

theorem mh_recv_spec (h : HashService) (W : Nat) (s s' : State) (x : Item) (hg : Good h s)
    (hs : recv s x = some s') :
    Good h s' ∧ s'.size W = s.size W + (33 + W) ∧
      s'.owed h = s.owed h + {Item.str (wide h (sprintV x))} ∧ s.pc = .loop ∧ s'.pc = .loop := by
  simp only [recv] at hs
  split at hs
  · rename_i hc
    simp only [Option.some.injEq] at hs
    subst hs
    refine ⟨⟨?_, ?_, ?_, ?_⟩, ?_, ?_, hc, hc⟩
    · simp [Worker.live, newWorker, hg.wg_eq]
    · simp [Worker.crit, newWorker, Sub.crit, hg.mu_eq]
    · intro hr; simp [hc] at hr
    · intro w hw
      rcases List.mem_append.mp hw with hw | hw
      · exact hg.ok w hw
      · simp only [List.mem_singleton] at hw
        subst hw
        exact newWorker_ok h _
    · simp only [State.size, List.map_append, List.sum_append, List.map_cons, List.map_nil,
        List.sum_cons, List.sum_nil, Worker.size, Worker.holds, newWorker, List.replicate,
        Sub.size]
      omega
    · simp [State.owed, Worker.owed, Worker.holds, newWorker]
  · simp at hs

theorem mh_eof_spec (h : HashService) (W : Nat) (s s' : State) (hg : Good h s)
    (hs : eof s = some s') :
    Good h s' ∧ s'.size W + 1 = s.size W ∧ s'.owed h = s.owed h ∧ s.pc = .loop ∧
      s'.pc = .wait := by
  simp only [eof] at hs
  split at hs
  · rename_i hc
    simp only [Option.some.injEq] at hs
    subst hs
    refine ⟨⟨hg.wg_eq, hg.mu_eq, ?_, hg.ok⟩, ?_, rfl, hc, rfl⟩
    · intro hr; simp at hr
    · simp only [State.size, hc]; omega
  · simp at hs

theorem mh_send_spec (h : HashService) (W : Nat) (s s' : State) (i : Nat) (x : Item)
    (hg : Good h s) (hs : send s i = some (x, s')) :
    Good h s' ∧ s'.size W + 1 + W = s.size W ∧ s'.owed h + {x} = s.owed h ∧ s'.pc = s.pc ∧
      s.pc ≠ .ret := by
  simp only [send] at hs
  split at hs
  · rename_i w hw
    split at hs
    · rename_i v hm
      simp only [Option.some.injEq, Prod.mk.injEq] at hs
      obtain ⟨rfl, rfl⟩ := hs
      have hok := hg.ok w (mem_of_getElem? _ _ _ hw)
      have e1 := sum_map_set Worker.live s.workers i w { w with main := .exit } hw
      have e2 := sum_map_set Worker.crit s.workers i w { w with main := .exit } hw
      have e3 := sum_map_set (fun w => w.size + w.holds * W) s.workers i w
        { w with main := .exit } hw
      have e4 := sum_map_set (Worker.owed h) s.workers i w { w with main := .exit } hw
      have e5 := le_sum_map_of_getElem? Worker.live s.workers i w hw
      have e6 := hg.wg_eq
      simp only [Worker.live, Worker.crit, Worker.size, Worker.holds, Worker.owed, hm] at e1 e2 e3 e4 e5
      refine ⟨⟨?_, ?_, ?_, ?_⟩, ?_, ?_, rfl, ?_⟩
      · simp only [Worker.live] at e6 ⊢; omega
      · have := hg.mu_eq
        simp only [Worker.crit] at this ⊢; omega
      · intro hr
        have := hg.ret_wg hr
        simp only at hr this
        omega
      · apply forall_mem_set _ _ _ _ hg.ok
        refine ⟨hok.subs_len, hok.res_len, hok.wg_eq, hok.sub_ok, ?_, ?_⟩
        · intro v hv; simp at hv
        · intro _; exact hok.main_wg (by simp [hm])
      · simp only [State.size, Worker.size, Worker.holds] at e3 ⊢
        omega
      · simp only [State.owed, Worker.owed, Worker.holds]
        simp only [Multiset.replicate_zero, Multiset.replicate_one, add_zero] at e4
        rw [hok.main_ok v hm]
        exact e4
      · intro hr
        have := hg.ret_wg hr
        omega
    · simp at hs
  · simp at hs

theorem mh_returned_spec (h : HashService) (s : State) (hg : Good h s) (hr : s.pc = .ret) :
    (∀ a, internal h s a = none) ∧ (∀ i, send s i = none) ∧ s.owed h = 0 ∧
      ∀ w ∈ s.workers, w.main = .done := by
  have hdone : ∀ w ∈ s.workers, w.main = .done := by
    intro w hw
    have h0 := hg.ret_wg hr
    rw [hg.wg_eq] at h0
    have := eq_zero_of_sum_map_eq_zero _ _ h0 w hw
    simp only [Worker.live] at this
    split at this
    · assumption
    · omega
  refine ⟨?_, ?_, ?_, hdone⟩
  · intro a
    cases hi : internal h s a with
    | none => rfl
    | some s' => exact absurd hr (mh_internal_spec h 0 s s' a hg hi).2.2.2.2
  · intro i
    cases hi : send s i with
    | none => rfl
    | some r => exact absurd hr (mh_send_spec h 0 s r.2 i r.1 hg hi).2.2.2.2
  · simp only [State.owed]
    apply List.sum_eq_zero
    intro m hm
    obtain ⟨w, hw, rfl⟩ := List.mem_map.mp hm
    simp [Worker.owed, Worker.holds, hdone w hw]

theorem mh_progress (h : HashService) (s : State) (hg : Good h s) (hw : s.pc = .wait) :
    (∃ a s', internal h s a = some s') ∨ (∃ i r, send s i = some r) := by
  by_cases h0 : s.wg = 0
  · exact Or.inl ⟨.wait, { s with pc := .ret }, by simp [internal, hw, h0]⟩
  · rw [hg.wg_eq] at h0
    obtain ⟨i, w, hi, hlive⟩ := exists_of_sum_map_ne_zero _ _ h0
    have hok := hg.ok w (mem_of_getElem? _ _ _ hi)
    have act : ∀ (j th : Nat) (u : Worker) (p : Sub) (o : SubOp) (r : Worker × Bool),
        s.workers[j]? = some u → u.subs[th]? = some p → subStep h u s.mu th p o = some r →
        ∃ a s', internal h s a = some s' := by
      intro j th u p o r hj hp hr
      exact ⟨.sub j th o, _, by simp only [internal, hj, hp, hr]; rfl⟩
    cases hm : w.main with
    | done => simp [Worker.live, hm] at hlive
    | exit => exact Or.inl ⟨.done i, _, by simp only [internal, hi, hm]; rfl⟩
    | send v => exact Or.inr ⟨i, _, by simp only [send, hi, hm]; rfl⟩
    | wait =>
      by_cases hz : w.wgInner = 0
      · exact Or.inl ⟨.join i, _, by simp only [internal, hi, hm, hz, if_true]; rfl⟩
      · rw [hok.wg_eq] at hz
        obtain ⟨th, p, hp, hpl⟩ := exists_of_sum_map_ne_zero _ _ hz
        cases p with
        | done => simp [Sub.live] at hpl
        | crc => exact Or.inl (act i th w _ .crc _ hi hp rfl)
        | store c => exact Or.inl (act i th w _ .store _ hi hp rfl)
        | unlock => exact Or.inl (act i th w _ .unlock _ hi hp rfl)
        | exit => exact Or.inl (act i th w _ .done _ hi hp rfl)
        | lock c =>
          cases hmu : s.mu with
          | false => exact Or.inl (act i th w _ .lock _ hi hp (by rw [hmu]; rfl))
          | true =>
            have hsum := hg.mu_eq
            rw [hmu] at hsum
            have hne : (s.workers.map Worker.crit).sum ≠ 0 := by rw [hsum]; simp
            obtain ⟨j, u, hj, hcrit⟩ := exists_of_sum_map_ne_zero _ _ hne
            obtain ⟨t, q, hq, hqc⟩ := exists_of_sum_map_ne_zero Sub.crit u.subs hcrit
            cases q with
            | store c => exact Or.inl (act j t u _ .store _ hj hq rfl)
            | unlock => exact Or.inl (act j t u _ .unlock _ hj hq rfl)
            | crc => simp [Sub.crit] at hqc
            | lock c => simp [Sub.crit] at hqc
            | exit => simp [Sub.crit] at hqc
            | done => simp [Sub.crit] at hqc

end MultiHash

/-! ## Stage functions: what one step does -/

theorem sort_coe (arr : List Str) : Multiset.sort StrLE (arr : Multiset Str) = sortStrings arr := by
  apply List.eq_of_perm_of_sorted (r := StrLE)
  · have h1 : ((Multiset.sort StrLE (arr : Multiset Str) : List Str) : Multiset Str) = arr :=
      Multiset.sort_eq _ _
    exact (Multiset.coe_eq_coe.mp h1).trans (List.perm_insertionSort StrLE arr).symm
  · exact Multiset.sort_sorted _ _
  · exact List.sorted_insertionSort StrLE arr

namespace Job

theorem job_internal_spec (h : HashService) (W : Nat) (j j' : Job) (a : JobAct) (hg : j.Good h)
    (hs : j.internal h a = some j') :
    j'.Good h ∧ j'.size W < j.size W ∧ (∀ inc, j'.emits h inc = j.emits h inc) ∧
      j'.inLoop = j.inLoop ∧ j'.tag = j.tag ∧ j.returned = false := by
  cases j with
  | single s =>
    cases a with
    | single a =>
      simp only [internal, Option.map_eq_some'] at hs
      obtain ⟨s', hs', rfl⟩ := hs
      obtain ⟨g, sz, ow, lp, nr⟩ := SingleHash.sh_internal_spec h W s s' a hg hs'
      refine ⟨g, sz, ?_, ?_, rfl, ?_⟩
      · intro inc
        simp only [emits, ow, lp]
      · simp only [inLoop, lp]
      · simp only [returned, nr, decide_False]
    | multi a => simp [internal] at hs
  | multi s =>
    cases a with
    | multi a =>
      simp only [internal, Option.map_eq_some'] at hs
      obtain ⟨s', hs', rfl⟩ := hs
      obtain ⟨g, sz, ow, lp, nr⟩ := MultiHash.mh_internal_spec h W s s' a hg hs'
      refine ⟨g, sz, ?_, ?_, rfl, ?_⟩
      · intro inc
        simp only [emits, ow, lp]
      · simp only [inLoop, lp]
      · simp only [returned, nr, decide_False]
    | single a => simp [internal] at hs
  | gen rest => simp [internal] at hs
  | combine s => simp [internal] at hs
  | sink got r => simp [internal] at hs

theorem job_recv_spec (h : HashService) (W : Nat) (j j' : Job) (x : Item) (st : Stage)
    (hg : j.Good h) (hs : j.recv x = some j') (hf : j.tag = st.tag) :
    j'.Good h ∧ j'.size W = j.size W + st.cost W ∧
      (∀ inc, j'.emits h inc = j.emits h (x ::ₘ inc)) ∧ j.inLoop = true ∧ j'.inLoop = true ∧
      j'.tag = j.tag := by
  cases j with
  | gen rest => simp [recv] at hs
  | single s =>
    simp only [recv, Option.map_eq_some'] at hs
    obtain ⟨s', hs', rfl⟩ := hs
    obtain ⟨g, sz, ow, l1, l2⟩ := SingleHash.sh_recv_spec h W s s' x hg hs'
    cases st <;> simp only [tag, Stage.tag, reduceCtorEq, OfNat.ofNat_ne_zero, OfNat.ofNat_ne_one,
      OfNat.zero_ne_ofNat, OfNat.one_ne_ofNat, Nat.reduceEqDiff] at hf
    refine ⟨g, sz, ?_, by simp [inLoop, l1], by simp [inLoop, l2], rfl⟩
    intro inc
    simp only [emits, ow, l1, l2, if_true, Multiset.map_cons]
    rw [add_assoc, Multiset.singleton_add]
  | multi s =>
    simp only [recv, Option.map_eq_some'] at hs
    obtain ⟨s', hs', rfl⟩ := hs
    obtain ⟨g, sz, ow, l1, l2⟩ := MultiHash.mh_recv_spec h W s s' x hg hs'
    cases st <;> simp only [tag, Stage.tag, reduceCtorEq, OfNat.ofNat_ne_zero, OfNat.ofNat_ne_one,
      OfNat.zero_ne_ofNat, OfNat.one_ne_ofNat, Nat.reduceEqDiff] at hf
    refine ⟨g, sz, ?_, by simp [inLoop, l1], by simp [inLoop, l2], rfl⟩
    intro inc
    simp only [emits, ow, l1, l2, if_true, Multiset.map_cons]
    rw [add_assoc, Multiset.singleton_add]
  | combine s =>
    cases s with
    | loop arr =>
      simp only [recv, CombineResults.recv, Option.map_some', Option.some.injEq] at hs
      subst hs
      cases st <;> simp only [tag, Stage.tag, reduceCtorEq, OfNat.ofNat_ne_zero,
        OfNat.ofNat_ne_one, OfNat.zero_ne_ofNat, OfNat.one_ne_ofNat, Nat.reduceEqDiff] at hf
      refine ⟨trivial, by simp [size, Stage.cost], ?_, rfl, rfl, rfl⟩
      intro inc
      simp only [emits, Multiset.map_cons]
      congr 4
      rw [← Multiset.coe_add, ← Multiset.singleton_add, ← add_assoc]
      congr 1
    | send v => simp [recv, CombineResults.recv] at hs
    | ret => simp [recv, CombineResults.recv] at hs
  | sink got r =>
    cases r with
    | true => simp [recv] at hs
    | false =>
      simp only [recv, Bool.false_eq_true, if_false, Option.some.injEq] at hs
      subst hs
      cases st <;> simp only [tag, Stage.tag, reduceCtorEq, OfNat.ofNat_ne_zero,
        OfNat.ofNat_ne_one, OfNat.zero_ne_ofNat, OfNat.one_ne_ofNat, Nat.reduceEqDiff] at hf
      refine ⟨trivial, by simp [size, Stage.cost], ?_, rfl, rfl, rfl⟩
      intro inc
      simp only [emits, Bool.false_eq_true, if_false]
      rw [← Multiset.coe_add, ← Multiset.singleton_add, ← add_assoc]
      congr 1

theorem job_eof_spec (h : HashService) (W : Nat) (j j' : Job) (hg : j.Good h)
    (hs : j.eof = some j') :
    j'.Good h ∧ j'.size W < j.size W ∧ j'.emits h 0 = j.emits h 0 ∧ j.inLoop = true ∧
      j'.inLoop = false ∧ j'.tag = j.tag := by
  cases j with
  | gen rest => simp [eof] at hs
  | single s =>
    simp only [eof, Option.map_eq_some'] at hs
    obtain ⟨s', hs', rfl⟩ := hs
    obtain ⟨g, sz, ow, l1, l2⟩ := SingleHash.sh_eof_spec h W s s' hg hs'
    refine ⟨g, ?_, ?_, by simp [inLoop, l1], by simp [inLoop, l2], rfl⟩
    · simp only [size]; omega
    · simp [emits, ow]
  | multi s =>
    simp only [eof, Option.map_eq_some'] at hs
    obtain ⟨s', hs', rfl⟩ := hs
    obtain ⟨g, sz, ow, l1, l2⟩ := MultiHash.mh_eof_spec h W s s' hg hs'
    refine ⟨g, ?_, ?_, by simp [inLoop, l1], by simp [inLoop, l2], rfl⟩
    · simp only [size]; omega
    · simp [emits, ow]
  | combine s =>
    cases s with
    | loop arr =>
      simp only [eof, CombineResults.eof, Option.map_some', Option.some.injEq] at hs
      subst hs
      refine ⟨trivial, by simp [size], ?_, rfl, rfl, rfl⟩
      simp only [emits, Multiset.map_zero, add_zero, sort_coe]
    | send v => simp [eof, CombineResults.eof] at hs
    | ret => simp [eof, CombineResults.eof] at hs
  | sink got r =>
    cases r with
    | true => simp [eof] at hs
    | false =>
      simp only [eof, Bool.false_eq_true, if_false, Option.some.injEq] at hs
      subst hs
      exact ⟨trivial, by simp [size], by simp [emits], rfl, rfl, rfl⟩

theorem job_send_spec (h : HashService) (W : Nat) (j j' : Job) (i : Nat) (x : Item)
    (hg : j.Good h) (hs : j.send i = some (x, j')) :
    j'.Good h ∧ j'.size W + 1 + W ≤ j.size W ∧ (∀ inc, j'.emits h inc + {x} = j.emits h inc) ∧
      j'.inLoop = j.inLoop ∧ j'.tag = j.tag ∧ j.returned = false := by
  cases j with
  | gen rest =>
    cases rest with
    | nil => simp [send] at hs
    | cons y ys =>
      cases i with
      | zero =>
        simp only [send, Option.some.injEq, Prod.mk.injEq] at hs
        obtain ⟨rfl, rfl⟩ := hs
        refine ⟨trivial, ?_, ?_, rfl, rfl, rfl⟩
        · simp only [size, List.length_cons]
          rw [Nat.succ_mul]; omega
        · intro inc
          simp only [emits]
          rw [← Multiset.cons_coe, ← Multiset.singleton_add, add_comm]
      | succ i => simp [send] at hs
  | single s =>
    simp only [send, Option.map_eq_some'] at hs
    obtain ⟨r, hs', hr⟩ := hs
    obtain ⟨x', s'⟩ := r
    simp only [Prod.mk.injEq] at hr
    obtain ⟨rfl, rfl⟩ := hr
    obtain ⟨g, sz, ow, l1, nr⟩ := SingleHash.sh_send_spec h W s s' i x' hg hs'
    refine ⟨g, ?_, ?_, by simp [inLoop, l1], rfl, by simp [returned, nr]⟩
    · simp only [size]; omega
    · intro inc
      simp only [emits, l1, ← ow]
      abel
  | multi s =>
    simp only [send, Option.map_eq_some'] at hs
    obtain ⟨r, hs', hr⟩ := hs
    obtain ⟨x', s'⟩ := r
    simp only [Prod.mk.injEq] at hr
    obtain ⟨rfl, rfl⟩ := hr
    obtain ⟨g, sz, ow, l1, nr⟩ := MultiHash.mh_send_spec h W s s' i x' hg hs'
    refine ⟨g, ?_, ?_, by simp [inLoop, l1], rfl, by simp [returned, nr]⟩
    · simp only [size]; omega
    · intro inc
      simp only [emits, l1, ← ow]
      abel
  | combine s =>
    cases i with
    | zero =>
      cases s with
      | send v =>
        simp only [send, CombineResults.send, Option.map_some', Option.some.injEq,
          Prod.mk.injEq] at hs
        obtain ⟨rfl, rfl⟩ := hs
        refine ⟨trivial, by simp [size], ?_, rfl, rfl, rfl⟩
        intro inc
        simp [emits]
      | loop arr => simp [send, CombineResults.send] at hs
      | ret => simp [send, CombineResults.send] at hs
    | succ i => simp [send] at hs
  | sink got r => simp [send] at hs

theorem job_returned_spec (h : HashService) (j : Job) (hg : j.Good h) (hr : j.returned = true) :
    j.inLoop = false ∧ (∀ a, j.internal h a = none) ∧ (∀ i, j.send i = none) ∧
      (j.tag ≠ 4 → ∀ inc, j.emits h inc = 0) := by
  cases j with
  | gen rest =>
    cases rest with
    | nil =>
      refine ⟨rfl, fun a => by simp [internal], fun i => by simp [send], fun _ inc => ?_⟩
      simp [emits]
    | cons y ys => simp [returned] at hr
  | single s =>
    simp only [returned, decide_eq_true_eq] at hr
    obtain ⟨a1, a2, a3, _⟩ := SingleHash.sh_returned_spec h s hg hr
    refine ⟨by simp [inLoop, hr], ?_, ?_, fun _ inc => ?_⟩
    · intro a
      cases a with
      | single a => simp [internal, a1]
      | multi a => simp [internal]
    · intro i; simp [send, a2]
    · simp [emits, a3, hr]
  | multi s =>
    simp only [returned, decide_eq_true_eq] at hr
    obtain ⟨a1, a2, a3, _⟩ := MultiHash.mh_returned_spec h s hg hr
    refine ⟨by simp [inLoop, hr], ?_, ?_, fun _ inc => ?_⟩
    · intro a
      cases a with
      | multi a => simp [internal, a1]
      | single a => simp [internal]
    · intro i; simp [send, a2]
    · simp [emits, a3, hr]
  | combine s =>
    simp only [returned, decide_eq_true_eq] at hr
    subst hr
    refine ⟨rfl, fun a => by simp [internal], fun i => ?_, fun _ inc => rfl⟩
    cases i <;> simp [send, CombineResults.send]
  | sink got r =>
    simp only [returned] at hr
    subst hr
    exact ⟨rfl, fun a => by simp [internal], fun i => by simp [send], fun ht => absurd rfl ht⟩

theorem job_inLoop_enabled (j : Job) (hl : j.inLoop = true) :
    (∀ x, ∃ j', j.recv x = some j') ∧ ∃ j', j.eof = some j' := by
  cases j with
  | gen rest => simp [inLoop] at hl
  | single s =>
    simp only [inLoop, decide_eq_true_eq] at hl
    exact ⟨fun x => ⟨_, by simp only [recv, SingleHash.recv, hl, if_true]; rfl⟩,
      ⟨_, by simp only [eof, SingleHash.eof, hl, if_true]; rfl⟩⟩
  | multi s =>
    simp only [inLoop, decide_eq_true_eq] at hl
    exact ⟨fun x => ⟨_, by simp only [recv, MultiHash.recv, hl, if_true]; rfl⟩,
      ⟨_, by simp only [eof, MultiHash.eof, hl, if_true]; rfl⟩⟩
  | combine s =>
    cases s with
    | loop arr => exact ⟨fun x => ⟨_, rfl⟩, ⟨_, rfl⟩⟩
    | send v => simp [inLoop] at hl
    | ret => simp [inLoop] at hl
  | sink got r =>
    cases r with
    | false => exact ⟨fun x => ⟨_, rfl⟩, ⟨_, rfl⟩⟩
    | true => simp [inLoop] at hl

theorem job_progress (h : HashService) (j : Job) (hg : j.Good h) (hr : j.returned = false)
    (hl : j.inLoop = false) :
    (∃ a j', j.internal h a = some j') ∨ (∃ i r, j.send i = some r) := by
  cases j with
  | gen rest =>
    cases rest with
    | nil => simp [returned] at hr
    | cons y ys => exact Or.inr ⟨0, _, rfl⟩
  | single s =>
    simp only [returned, decide_eq_false_iff_not] at hr
    simp only [inLoop, decide_eq_false_iff_not] at hl
    have hw : s.pc = .wait := by
      cases hp : s.pc <;> simp_all
    rcases SingleHash.sh_progress h s hg hw with ⟨a, s', ha⟩ | ⟨i, r, hi⟩
    · exact Or.inl ⟨.single a, .single s', by simp [internal, ha]⟩
    · exact Or.inr ⟨i, _, by simp only [send, hi]; rfl⟩
  | multi s =>
    simp only [returned, decide_eq_false_iff_not] at hr
    simp only [inLoop, decide_eq_false_iff_not] at hl
    have hw : s.pc = .wait := by
      cases hp : s.pc <;> simp_all
    rcases MultiHash.mh_progress h s hg hw with ⟨a, s', ha⟩ | ⟨i, r, hi⟩
    · exact Or.inl ⟨.multi a, .multi s', by simp [internal, ha]⟩
    · exact Or.inr ⟨i, _, by simp only [send, hi]; rfl⟩
  | combine s =>
    cases s with
    | loop arr => simp [inLoop] at hl
    | send v => exact Or.inr ⟨0, _, rfl⟩
    | ret => simp [returned] at hr
  | sink got r =>
    cases r with
    | false => simp [inLoop] at hl
    | true => simp [returned] at hr

end Job

/-! ## ExecutePipeline: the invariant -/

namespace ExecutePipeline

theorem init_inv (h : HashService) (stages : List Stage) : PipeInv h stages (init stages) := by
  refine ⟨?_, ?_, rfl, ?_, ?_, ?_, ?_⟩
  · intro n hn; simp [init] at hn
  · intro n hn; simp [init] at hn
  · intro hr; simp [init] at hr
  · intro k n m hn; simp [init] at hn
  · simp [init]
  · intro k n hn; simp [init] at hn

theorem inv_set (h : HashService) (stages : List Stage) (s : State) (k : Nat) (n n' : Node)
    (wg' : Nat) (hinv : PipeInv h stages s) (hk : s.nodes[k]? = some n)
    (hgood : n'.job.Good h) (htag : n'.job.tag = n.job.tag)
    (hret : n'.phase ≠ .running → n'.job.returned = true)
    (hwg : wg' + n.phase.live = s.wg + n'.phase.live) (hmono : n'.phase.live ≤ n.phase.live)
    (hup : n'.job.inLoop = false → n.job.inLoop = false ∨
      ∃ i m, i + 1 = k ∧ s.nodes[i]? = some m ∧ m.phase = .finished)
    (hdown : n.phase = .finished → n'.phase = .finished) :
    PipeInv h stages ⟨s.todo, s.nodes.set k n', wg', s.returned⟩ := by
  have hlt : k < s.nodes.length := (List.getElem?_eq_some.mp hk).1
  refine ⟨?_, ?_, ?_, ?_, ?_, ?_, ?_⟩
  · exact forall_mem_set _ _ _ _ hinv.good hgood
  · exact forall_mem_set (fun n : Node => n.phase ≠ .running → n.job.returned = true) _ _ _
      hinv.ret hret
  · have e1 := sum_map_set (fun n : Node => n.phase.live) s.nodes k n n' hk
    have e2 := hinv.wg_eq
    simp only at e1 ⊢
    omega
  · intro hr
    obtain ⟨h1, h2⟩ := hinv.wait hr
    have e3 := le_sum_map_of_getElem? (fun n : Node => n.phase.live) s.nodes k n hk
    have e2 := hinv.wg_eq
    simp only at e3 hwg ⊢
    exact ⟨h1, by omega⟩
  · intro i a b ha hb hb0 hbl
    simp only [List.getElem?_set] at ha hb
    by_cases e1 : k = i
    · subst e1
      rw [if_pos rfl, if_pos hlt] at ha
      cases ha
      rw [if_neg (by omega)] at hb
      exact hdown (hinv.adj k n b hk hb hb0 hbl)
    · rw [if_neg e1] at ha
      by_cases e2 : k = i + 1
      · subst e2
        rw [if_pos rfl, if_pos hlt] at hb
        cases hb
        rcases hup hbl with hl | ⟨i', m, hi', hm, hf⟩
        · exact hinv.adj i a n ha hk (by rw [← htag]; exact hb0) hl
        · have : i' = i := by omega
          subst this
          rw [ha] at hm
          cases hm
          exact hf
      · rw [if_neg e2] at hb
        exact hinv.adj i a b ha hb hb0 hbl
  · simp only [List.length_set]
    exact hinv.todo_eq
  · intro i a ha
    simp only [List.getElem?_set] at ha
    by_cases e1 : k = i
    · subst e1
      rw [if_pos rfl, if_pos hlt] at ha
      cases ha
      obtain ⟨st, hst, ht⟩ := hinv.shape k n hk
      exact ⟨st, hst, by rw [htag]; exact ht⟩
    · rw [if_neg e1] at ha
      exact hinv.shape i a ha

theorem running_of_not_returned (h : HashService) (stages : List Stage) (s : State) (k : Nat)
    (n : Node) (hinv : PipeInv h stages s) (hk : s.nodes[k]? = some n)
    (hr : n.job.returned = false) : n.phase = .running := by
  by_contra hp
  have := hinv.ret n (mem_of_getElem? _ _ _ hk) hp
  rw [hr] at this
  cases this

theorem not_returned_of_inLoop (h : HashService) (j : Job) (hg : j.Good h)
    (hl : j.inLoop = true) : j.returned = false := by
  cases hr : j.returned with
  | false => rfl
  | true =>
    have := (Job.job_returned_spec h j hg hr).1
    rw [hl] at this
    cases this

theorem step_inv (h : HashService) (stages : List Stage) (s s' : State) (a : Act)
    (hinv : PipeInv h stages s) (hs : step h s a = some s') : PipeInv h stages s' := by
  cases a with
  | spawn =>
    simp only [step] at hs
    split at hs
    · rename_i j rest htodo
      simp only [Option.some.injEq] at hs
      subst hs
      have hte := hinv.todo_eq
      rw [htodo] at hte
      have hlen : s.nodes.length < stages.length := by
        by_contra hge
        rw [List.drop_eq_nil_of_le (by omega)] at hte
        simp at hte
      have hst : stages[s.nodes.length]? = some stages[s.nodes.length] :=
        List.getElem?_eq_getElem hlen
      have hdrop : stages.drop s.nodes.length =
          stages[s.nodes.length] :: stages.drop (s.nodes.length + 1) :=
        List.drop_eq_getElem_cons hlen
      rw [hdrop, List.map_cons, List.cons.injEq] at hte
      obtain ⟨hj, hrest⟩ := hte
      have hjgood : j.Good h ∧ j.tag = (stages[s.nodes.length]).tag ∧
          (j.tag ≠ 0 → j.inLoop = true) := by
        rw [hj]
        cases stages[s.nodes.length] <;>
          simp [Stage.start, Job.Good, Job.tag, Stage.tag, Job.inLoop, Job.generator,
            Job.collector, SingleHash.init, MultiHash.init, CombineResults.init] <;>
          constructor <;> simp
      refine ⟨?_, ?_, ?_, ?_, ?_, ?_, ?_⟩
      · intro n hn
        rcases List.mem_append.mp hn with hn | hn
        · exact hinv.good n hn
        · simp only [List.mem_singleton] at hn
          subst hn
          exact hjgood.1
      · intro n hn
        rcases List.mem_append.mp hn with hn | hn
        · exact hinv.ret n hn
        · simp only [List.mem_singleton] at hn
          subst hn
          intro hp; exact absurd rfl hp
      · simp [Phase.live, hinv.wg_eq]
      · intro hr
        have := (hinv.wait hr).1
        rw [htodo] at this
        cases this
      · intro k n m hn hm hm0 hml
        by_cases hk : k + 1 < s.nodes.length
        · rw [List.getElem?_append_left (by omega)] at hn
          rw [List.getElem?_append_left hk] at hm
          exact hinv.adj k n m hn hm hm0 hml
        · have hk1 : k + 1 = s.nodes.length := by
            have := (List.getElem?_eq_some.mp hm).1
            simp only [List.length_append, List.length_singleton] at this
            omega
          rw [List.getElem?_append_right (by omega)] at hm
          have : k + 1 - s.nodes.length = 0 := by omega
          rw [this] at hm
          simp only [List.getElem?_cons_zero, Option.some.injEq] at hm
          subst hm
          have := hjgood.2.2 hm0
          simp only at this hml
          rw [this] at hml
          cases hml
      · simp only [List.length_append, List.length_singleton]
        exact hrest
      · intro k n hn
        by_cases hk : k < s.nodes.length
        · rw [List.getElem?_append_left hk] at hn
          exact hinv.shape k n hn
        · have hk1 : k = s.nodes.length := by
            have := (List.getElem?_eq_some.mp hn).1
            simp only [List.length_append, List.length_singleton] at this
            omega
          subst hk1
          rw [List.getElem?_append_right (by omega)] at hn
          simp only [Nat.sub_self, List.getElem?_cons_zero, Option.some.injEq] at hn
          subst hn
          exact ⟨_, hst, hjgood.2.1⟩
    · simp at hs
  | job k a =>
    simp only [step] at hs
    split at hs
    · rename_i n hn
      split at hs
      · rename_i j hj
        simp only [Option.some.injEq] at hs
        subst hs
        have hg := hinv.good n (mem_of_getElem? _ _ _ hn)
        obtain ⟨g, _, _, lp, tg, nr⟩ := Job.job_internal_spec h 0 n.job j a hg hj
        have hrun := running_of_not_returned h stages s k n hinv hn nr
        exact inv_set h stages s k n { n with job := j } s.wg hinv hn g tg
          (fun hp => absurd hrun hp) rfl (Nat.le_refl _)
          (fun hl => Or.inl (by simp only at hl; rw [← lp]; exact hl)) (fun hf => hf)
      · simp at hs
    · simp at hs
  | pass k i =>
    simp only [step] at hs
    split at hs
    · rename_i n m hn hm
      split at hs
      · rename_i x j hj
        split at hs
        · rename_i j' hj'
          simp only [Option.some.injEq] at hs
          subst hs
          have hg := hinv.good n (mem_of_getElem? _ _ _ hn)
          have hgm := hinv.good m (mem_of_getElem? _ _ _ hm)
          obtain ⟨g, _, _, lp, tg, nr⟩ := Job.job_send_spec h 0 n.job j i x hg hj
          obtain ⟨stm, hstm, htm⟩ := hinv.shape (k + 1) m hm
          obtain ⟨g', _, _, l1, l2, tg'⟩ := Job.job_recv_spec h 0 m.job j' x stm hgm hj' htm
          have hrun := running_of_not_returned h stages s k n hinv hn nr
          have hrun' := running_of_not_returned h stages s (k + 1) m hinv hm
            (not_returned_of_inLoop h m.job hgm l1)
          have inv1 := inv_set h stages s k n { n with job := j } s.wg hinv hn g tg
            (fun hp => absurd hrun hp) rfl (Nat.le_refl _)
            (fun hl => Or.inl (by simp only at hl; rw [← lp]; exact hl)) (fun hf => hf)
          have hm1 : (s.nodes.set k { n with job := j })[k + 1]? = some m := by
            rw [List.getElem?_set_ne (by omega)]; exact hm
          exact inv_set h stages ⟨s.todo, s.nodes.set k { n with job := j }, s.wg, s.returned⟩
            (k + 1) m { m with job := j' } s.wg inv1 hm1 g' tg'
            (fun hp => absurd hrun' hp) rfl (Nat.le_refl _)
            (fun hl => by simp only at hl; rw [l2] at hl; cases hl) (fun hf => hf)
        · simp at hs
      · simp at hs
    · simp at hs
  | eof k =>
    simp only [step] at hs
    split at hs
    · rename_i n m hn hm
      split at hs
      · rename_i hfin
        split at hs
        · rename_i j' hj'
          simp only [Option.some.injEq] at hs
          subst hs
          have hgm := hinv.good m (mem_of_getElem? _ _ _ hm)
          obtain ⟨g', _, _, l1, l2, tg'⟩ := Job.job_eof_spec h 0 m.job j' hgm hj'
          have hrun' := running_of_not_returned h stages s (k + 1) m hinv hm
            (not_returned_of_inLoop h m.job hgm l1)
          exact inv_set h stages s (k + 1) m { m with job := j' } s.wg hinv hm g' tg'
            (fun hp => absurd hrun' hp) rfl (Nat.le_refl _)
            (fun _ => Or.inr ⟨k, n, rfl, hn, hfin⟩) (fun hf => hf)
        · simp at hs
      · simp at hs
    · simp at hs
  | done k =>
    simp only [step] at hs
    split at hs
    · rename_i n hn
      split at hs
      · rename_i hc
        simp only [Option.some.injEq] at hs
        subst hs
        have e3 := le_sum_map_of_getElem? (fun n : Node => n.phase.live) s.nodes k n hn
        have e2 := hinv.wg_eq
        rw [← e2] at e3
        simp only [hc.1, Phase.live] at e3
        exact inv_set h stages s k n { n with phase := .signalled } (s.wg - 1) hinv hn
          (hinv.good n (mem_of_getElem? _ _ _ hn)) rfl (fun _ => hc.2)
          (by simp only [hc.1, Phase.live]; omega) (by simp [Phase.live])
          (fun hl => Or.inl hl) (fun hf => by rw [hc.1] at hf; cases hf)
      · simp at hs
    · simp at hs
  | close k =>
    simp only [step] at hs
    split at hs
    · rename_i n hn
      split at hs
      · rename_i hc
        simp only [Option.some.injEq] at hs
        subst hs
        exact inv_set h stages s k n { n with phase := .finished } s.wg hinv hn
          (hinv.good n (mem_of_getElem? _ _ _ hn)) rfl
          (fun _ => hinv.ret n (mem_of_getElem? _ _ _ hn) (by rw [hc]; simp))
          (by simp only [hc, Phase.live]) (by simp [Phase.live])
          (fun hl => Or.inl hl) (fun _ => rfl)
      · simp at hs
    · simp at hs
  | wait =>
    simp only [step] at hs
    split at hs
    · rename_i hc
      simp only [Option.some.injEq] at hs
      subst hs
      exact ⟨hinv.good, hinv.ret, hinv.wg_eq, fun _ => ⟨hc.1, hc.2.1⟩, hinv.adj, hinv.todo_eq,
        hinv.shape⟩
    · simp at hs

theorem exec_inv (h : HashService) (stages : List Stage) (sched : List Act) (s s' : State)
    (hinv : PipeInv h stages s) (hs : exec h s sched = some s') : PipeInv h stages s' := by
  induction sched generalizing s with
  | nil =>
    simp only [exec, Option.some.injEq] at hs
    subst hs
    exact hinv
  | cons a rest ih =>
    simp only [exec] at hs
    split at hs
    · rename_i s1 h1
      exact ih s1 (step_inv h stages s s1 a hinv h1) hs
    · simp at hs

end ExecutePipeline

/-! ## ExecutePipeline: every step uses up the measure -/

namespace ExecutePipeline

theorem potNodes_set (stages : List Stage) (nodes : List Node) (k i : Nat) (n n' : Node)
    (hi : nodes[i]? = some n) :
    potNodes stages k (nodes.set i n') + nodeSize stages (k + i) n =
      potNodes stages k nodes + nodeSize stages (k + i) n' := by
  induction nodes generalizing k i with
  | nil => simp at hi
  | cons x xs ih =>
    cases i with
    | zero =>
      simp only [List.getElem?_cons_zero, Option.some.injEq] at hi
      subst hi
      simp only [List.set_cons_zero, potNodes, Nat.add_zero]
      omega
    | succ i =>
      simp only [List.getElem?_cons_succ] at hi
      have := ih (k + 1) i hi
      simp only [List.set_cons_succ, potNodes]
      have e : k + 1 + i = k + (i + 1) := by omega
      rw [e] at this
      omega

theorem potNodes_append (stages : List Stage) (nodes : List Node) (k : Nat) (n : Node) :
    potNodes stages k (nodes ++ [n]) =
      potNodes stages k nodes + nodeSize stages (k + nodes.length) n := by
  induction nodes generalizing k with
  | nil => simp [potNodes]
  | cons x xs ih =>
    have e : k + 1 + xs.length = k + (xs.length + 1) := by omega
    have := ih (k + 1)
    rw [e] at this
    show nodeSize stages k x + potNodes stages (k + 1) (xs ++ [n]) =
      nodeSize stages k x + potNodes stages (k + 1) xs + nodeSize stages (k + (xs.length + 1)) n
    rw [this]
    omega

theorem step_size (h : HashService) (stages : List Stage) (s s' : State) (a : Act)
    (hinv : PipeInv h stages s) (hs : step h s a = some s') :
    s'.size stages < s.size stages := by
  cases a with
  | spawn =>
    simp only [step] at hs
    split at hs
    · rename_i j rest htodo
      simp only [Option.some.injEq] at hs
      subst hs
      simp only [State.size, htodo, potNodes_append, potTodo, nodeSize, Phase.size,
        List.length_append, List.length_singleton, Nat.zero_add]
      omega
    · simp at hs
  | job k a =>
    simp only [step] at hs
    split at hs
    · rename_i n hn
      split at hs
      · rename_i j hj
        simp only [Option.some.injEq] at hs
        subst hs
        have hg := hinv.good n (mem_of_getElem? _ _ _ hn)
        obtain ⟨_, sz, _⟩ :=
          Job.job_internal_spec h (outW (stages.drop (k + 1))) n.job j a hg hj
        have e := potNodes_set stages s.nodes 0 k n { n with job := j } hn
        simp only [State.size, List.length_set, nodeSize, Nat.zero_add] at e ⊢
        omega
      · simp at hs
    · simp at hs
  | pass k i =>
    simp only [step] at hs
    split at hs
    · rename_i n m hn hm
      split at hs
      · rename_i x j hj
        split at hs
        · rename_i j' hj'
          simp only [Option.some.injEq] at hs
          subst hs
          have hg := hinv.good n (mem_of_getElem? _ _ _ hn)
          have hgm := hinv.good m (mem_of_getElem? _ _ _ hm)
          obtain ⟨stm, hstm, htm⟩ := hinv.shape (k + 1) m hm
          obtain ⟨_, sz, _⟩ :=
            Job.job_send_spec h (outW (stages.drop (k + 1))) n.job j i x hg hj
          obtain ⟨_, sz', _⟩ :=
            Job.job_recv_spec h (outW (stages.drop (k + 1 + 1))) m.job j' x stm hgm hj' htm
          have hlt : k + 1 < stages.length := (List.getElem?_eq_some.mp hstm).1
          have hW : outW (stages.drop (k + 1)) = stm.cost (outW (stages.drop (k + 1 + 1))) := by
            rw [List.drop_eq_getElem_cons hlt]
            have : stages[k + 1] = stm := by
              have := List.getElem?_eq_getElem hlt
              rw [hstm] at this
              exact (Option.some.inj this).symm
            rw [this]
            rfl
          have hm1 : (s.nodes.set k { n with job := j })[k + 1]? = some m := by
            rw [List.getElem?_set_ne (by omega)]; exact hm
          have e1 := potNodes_set stages s.nodes 0 k n { n with job := j } hn
          have e2 := potNodes_set stages (s.nodes.set k { n with job := j }) 0 (k + 1) m
            { m with job := j' } hm1
          simp only [State.size, List.length_set, nodeSize, Nat.zero_add] at e1 e2 ⊢
          omega
        · simp at hs
      · simp at hs
    · simp at hs
  | eof k =>
    simp only [step] at hs
    split at hs
    · rename_i n m hn hm
      split at hs
      · rename_i hfin
        split at hs
        · rename_i j' hj'
          simp only [Option.some.injEq] at hs
          subst hs
          have hgm := hinv.good m (mem_of_getElem? _ _ _ hm)
          obtain ⟨_, sz, _⟩ :=
            Job.job_eof_spec h (outW (stages.drop (k + 1 + 1))) m.job j' hgm hj'
          have e := potNodes_set stages s.nodes 0 (k + 1) m { m with job := j' } hm
          simp only [State.size, List.length_set, nodeSize, Nat.zero_add] at e ⊢
          omega
        · simp at hs
      · simp at hs
    · simp at hs
  | done k =>
    simp only [step] at hs
    split at hs
    · rename_i n hn
      split at hs
      · rename_i hc
        simp only [Option.some.injEq] at hs
        subst hs
        have e := potNodes_set stages s.nodes 0 k n { n with phase := .signalled } hn
        simp only [State.size, List.length_set, nodeSize, Nat.zero_add, hc.1, Phase.size] at e ⊢
        omega
      · simp at hs
    · simp at hs
  | close k =>
    simp only [step] at hs
    split at hs
    · rename_i n hn
      split at hs
      · rename_i hc
        simp only [Option.some.injEq] at hs
        subst hs
        have e := potNodes_set stages s.nodes 0 k n { n with phase := .finished } hn
        simp only [State.size, List.length_set, nodeSize, Nat.zero_add, hc, Phase.size] at e ⊢
        omega
      · simp at hs
    · simp at hs
  | wait =>
    simp only [step] at hs
    split at hs
    · rename_i hc
      simp only [Option.some.injEq] at hs
      subst hs
      simp only [State.size, hc.2.2]
      simp
    · simp at hs

theorem exec_size (h : HashService) (stages : List Stage) (sched : List Act) (s s' : State)
    (hinv : PipeInv h stages s) (hs : exec h s sched = some s') :
    sched.length + s'.size stages ≤ s.size stages := by
  induction sched generalizing s with
  | nil =>
    simp only [exec, Option.some.injEq] at hs
    subst hs
    simp
  | cons a rest ih =>
    simp only [exec] at hs
    split at hs
    · rename_i s1 h1
      have := ih s1 (step_inv h stages s s1 a hinv h1) hs
      have := step_size h stages s s1 a hinv h1
      simp only [List.length_cons]
      omega
    · simp at hs

end ExecutePipeline

/-! ## ExecutePipeline: what flows out of the stages is fixed from the start -/

namespace ExecutePipeline

theorem flow_append (h : HashService) (a b : List Job) (inc : Multiset Item) :
    flow h (a ++ b) inc = flow h b (flow h a inc) := by
  induction a generalizing inc with
  | nil => rfl
  | cons j rest ih =>
    show flow h (rest ++ b) _ = _
    exact ih _

theorem flow_set_congr (h : HashService) (l : List Job) (k : Nat) (j j' : Job)
    (inc : Multiset Item) (hk : l[k]? = some j) (he : ∀ inc, j'.emits h inc = j.emits h inc) :
    flow h (l.set k j') inc = flow h l inc := by
  induction l generalizing k inc with
  | nil => simp at hk
  | cons x xs ih =>
    cases k with
    | zero =>
      simp only [List.getElem?_cons_zero, Option.some.injEq] at hk
      subst hk
      simp only [List.set_cons_zero, flow, he]
    | succ k =>
      simp only [List.getElem?_cons_succ] at hk
      simp only [List.set_cons_succ, flow]
      exact ih k _ hk

theorem flow_set_pass (h : HashService) (l : List Job) (k : Nat) (j j' m m' : Job) (x : Item)
    (inc : Multiset Item) (hk : l[k]? = some j) (hm : l[k + 1]? = some m)
    (he : ∀ inc, j'.emits h inc + {x} = j.emits h inc)
    (hr : ∀ inc, m'.emits h inc = m.emits h (x ::ₘ inc)) :
    flow h ((l.set k j').set (k + 1) m') inc = flow h l inc := by
  induction l generalizing k inc with
  | nil => simp at hk
  | cons a t ih =>
    cases k with
    | zero =>
      simp only [List.getElem?_cons_zero, Option.some.injEq] at hk
      subst hk
      cases t with
      | nil => simp at hm
      | cons b t' =>
        simp only [Nat.zero_add, List.getElem?_cons_succ, List.getElem?_cons_zero,
          Option.some.injEq] at hm
        subst hm
        simp only [List.set_cons_zero, Nat.zero_add, List.set_cons_succ, flow, hr]
        rw [← he inc, ← Multiset.singleton_add, add_comm]
    | succ k =>
      simp only [List.getElem?_cons_succ] at hk hm
      simp only [List.set_cons_succ, flow]
      exact ih k _ hk hm

theorem flow_set_eof (h : HashService) (l : List Job) (k : Nat) (j m m' : Job)
    (hk : l[k]? = some j) (hm : l[k + 1]? = some m) (hz : ∀ inc, j.emits h inc = 0)
    (he : m'.emits h 0 = m.emits h 0) (inc : Multiset Item) :
    flow h (l.set (k + 1) m') inc = flow h l inc := by
  induction l generalizing k inc with
  | nil => simp at hk
  | cons a t ih =>
    cases k with
    | zero =>
      simp only [List.getElem?_cons_zero, Option.some.injEq] at hk
      subst hk
      cases t with
      | nil => simp at hm
      | cons b t' =>
        simp only [Nat.zero_add, List.getElem?_cons_succ, List.getElem?_cons_zero,
          Option.some.injEq] at hm
        subst hm
        simp only [Nat.zero_add, List.set_cons_succ, List.set_cons_zero, flow, hz, he]
    | succ k =>
      simp only [List.getElem?_cons_succ] at hk hm
      simp only [List.set_cons_succ, flow]
      exact ih k hk hm _

theorem jobs_getElem? (s : State) (k : Nat) (n : Node) (hk : s.nodes[k]? = some n) :
    s.jobs[k]? = some n.job := by
  have hlt : k < s.nodes.length := (List.getElem?_eq_some.mp hk).1
  simp only [State.jobs]
  rw [List.getElem?_append_left (by simpa using hlt), List.getElem?_map, hk]
  rfl

theorem jobs_set (s : State) (wg : Nat) (r : Bool) (k : Nat) (n n' : Node)
    (hk : s.nodes[k]? = some n) :
    State.jobs ⟨s.todo, s.nodes.set k n', wg, r⟩ = s.jobs.set k n'.job := by
  have hlt : k < s.nodes.length := (List.getElem?_eq_some.mp hk).1
  simp only [State.jobs, List.map_set]
  rw [List.set_append_left _ _ (by simpa using hlt)]

theorem jobs_set_same (s : State) (wg : Nat) (r : Bool) (k : Nat) (n n' : Node)
    (hk : s.nodes[k]? = some n) (hj : n'.job = n.job) :
    State.jobs ⟨s.todo, s.nodes.set k n', wg, r⟩ = s.jobs := by
  rw [jobs_set s wg r k n n' hk, hj]
  apply List.ext_getElem?
  intro i
  rw [List.getElem?_set]
  by_cases e : k = i
  · subst e
    rw [if_pos rfl, jobs_getElem? s k n hk]
    have : k < s.jobs.length := (List.getElem?_eq_some.mp (jobs_getElem? s k n hk)).1
    rw [if_pos this]
  · rw [if_neg e]

theorem wf_collector_last (stages : List Stage) (hwf : WellFormed stages) (k : Nat) (st : Stage)
    (hk : stages[k]? = some st) (ht : st.tag = 4) : k + 1 = stages.length := by
  obtain ⟨xs, middle, rfl, hmid⟩ := hwf
  cases k with
  | zero =>
    simp only [List.getElem?_cons_zero, Option.some.injEq] at hk
    subst hk
    simp [Stage.tag] at ht
  | succ k =>
    simp only [List.getElem?_cons_succ] at hk
    simp only [List.length_cons, List.length_append, List.length_singleton]
    by_cases hlt : k < middle.length
    · rw [List.getElem?_append_left hlt] at hk
      have := hmid st (mem_of_getElem? _ _ _ hk)
      rcases this with rfl | rfl | rfl <;> simp [Stage.tag] at ht
    · have := (List.getElem?_eq_some.mp hk).1
      simp only [List.length_append, List.length_singleton, List.length_nil] at this ⊢
      omega

theorem wf_generator_first (stages : List Stage) (hwf : WellFormed stages) (k : Nat) (st : Stage)
    (hk : stages[k]? = some st) : st.tag = 0 ↔ k = 0 := by
  obtain ⟨xs, middle, rfl, hmid⟩ := hwf
  cases k with
  | zero =>
    simp only [List.getElem?_cons_zero, Option.some.injEq] at hk
    subst hk
    simp [Stage.tag]
  | succ k =>
    simp only [List.getElem?_cons_succ] at hk
    have hm := mem_of_getElem? _ _ _ hk
    rcases List.mem_append.mp hm with hm | hm
    · rcases hmid st hm with rfl | rfl | rfl <;> simp [Stage.tag]
    · simp only [List.mem_singleton] at hm
      subst hm
      simp [Stage.tag]

theorem step_flow (h : HashService) (stages : List Stage) (s s' : State) (a : Act)
    (hwf : WellFormed stages) (hinv : PipeInv h stages s) (hs : step h s a = some s') :
    flow h s'.jobs 0 = flow h s.jobs 0 := by
  cases a with
  | spawn =>
    simp only [step] at hs
    split at hs
    · rename_i j rest htodo
      simp only [Option.some.injEq] at hs
      subst hs
      simp [State.jobs, htodo]
    · simp at hs
  | job k a =>
    simp only [step] at hs
    split at hs
    · rename_i n hn
      split at hs
      · rename_i j hj
        simp only [Option.some.injEq] at hs
        subst hs
        have hg := hinv.good n (mem_of_getElem? _ _ _ hn)
        obtain ⟨_, _, em, _⟩ := Job.job_internal_spec h 0 n.job j a hg hj
        rw [jobs_set s s.wg s.returned k n _ hn]
        exact flow_set_congr h _ k n.job j 0 (jobs_getElem? s k n hn) em
      · simp at hs
    · simp at hs
  | pass k i =>
    simp only [step] at hs
    split at hs
    · rename_i n m hn hm
      split at hs
      · rename_i x j hj
        split at hs
        · rename_i j' hj'
          simp only [Option.some.injEq] at hs
          subst hs
          have hg := hinv.good n (mem_of_getElem? _ _ _ hn)
          have hgm := hinv.good m (mem_of_getElem? _ _ _ hm)
          obtain ⟨stm, hstm, htm⟩ := hinv.shape (k + 1) m hm
          obtain ⟨_, _, em, _⟩ := Job.job_send_spec h 0 n.job j i x hg hj
          obtain ⟨_, _, em', _⟩ := Job.job_recv_spec h 0 m.job j' x stm hgm hj' htm
          have hm1 : (s.nodes.set k { n with job := j })[k + 1]? = some m := by
            rw [List.getElem?_set_ne (by omega)]; exact hm
          have e1 := jobs_set ⟨s.todo, s.nodes.set k { n with job := j }, s.wg, s.returned⟩
            s.wg s.returned (k + 1) m { m with job := j' } hm1
          have e2 := jobs_set s s.wg s.returned k n { n with job := j } hn
          simp only at e1
          rw [e1, e2]
          exact flow_set_pass h _ k n.job j m.job j' x 0 (jobs_getElem? s k n hn)
            (jobs_getElem? s (k + 1) m hm) em em'
        · simp at hs
      · simp at hs
    · simp at hs
  | eof k =>
    simp only [step] at hs
    split at hs
    · rename_i n m hn hm
      split at hs
      · rename_i hfin
        split at hs
        · rename_i j' hj'
          simp only [Option.some.injEq] at hs
          subst hs
          have hg := hinv.good n (mem_of_getElem? _ _ _ hn)
          have hgm := hinv.good m (mem_of_getElem? _ _ _ hm)
          obtain ⟨_, _, em, _⟩ := Job.job_eof_spec h 0 m.job j' hgm hj'
          have hret := hinv.ret n (mem_of_getElem? _ _ _ hn) (by rw [hfin]; simp)
          obtain ⟨stn, hstn, htn⟩ := hinv.shape k n hn
          have hne : n.job.tag ≠ 4 := by
            intro h4
            have := wf_collector_last stages hwf k stn hstn (by rw [← htn]; exact h4)
            obtain ⟨stm, hstm, _⟩ := hinv.shape (k + 1) m hm
            have := (List.getElem?_eq_some.mp hstm).1
            omega
          have hz := (Job.job_returned_spec h n.job hg hret).2.2.2 hne
          rw [jobs_set s s.wg s.returned (k + 1) m _ hm]
          exact flow_set_eof h _ k n.job m.job j' (jobs_getElem? s k n hn)
            (jobs_getElem? s (k + 1) m hm) hz em 0
        · simp at hs
      · simp at hs
    · simp at hs
  | done k =>
    simp only [step] at hs
    split at hs
    · rename_i n hn
      split at hs
      · simp only [Option.some.injEq] at hs
        subst hs
        rw [jobs_set_same s _ _ k n { n with phase := .signalled } hn rfl]
      · simp at hs
    · simp at hs
  | close k =>
    simp only [step] at hs
    split at hs
    · rename_i n hn
      split at hs
      · simp only [Option.some.injEq] at hs
        subst hs
        rw [jobs_set_same s _ _ k n { n with phase := .finished } hn rfl]
      · simp at hs
    · simp at hs
  | wait =>
    simp only [step] at hs
    split at hs
    · simp only [Option.some.injEq] at hs
      subst hs
      rfl
    · simp at hs

end ExecutePipeline

/-! ## ExecutePipeline: a well-formed pipeline never gets stuck -/

namespace ExecutePipeline

theorem wf_last (stages : List Stage) (hwf : WellFormed stages) :
    stages[stages.length - 1]? = some .collector := by
  obtain ⟨xs, middle, rfl, _⟩ := hwf
  simp

theorem exists_first_unfinished (nodes : List Node)
    (hex : ∃ n ∈ nodes, n.phase ≠ .finished) :
    ∃ (k : Nat) (n : Node), nodes[k]? = some n ∧ n.phase ≠ .finished ∧
      ∀ (i : Nat) (m : Node), i < k → nodes[i]? = some m → m.phase = .finished := by
  induction nodes with
  | nil =>
    obtain ⟨n, hn, _⟩ := hex
    simp at hn
  | cons x xs ih =>
    by_cases hx : x.phase = .finished
    · have hex' : ∃ n ∈ xs, n.phase ≠ .finished := by
        obtain ⟨n, hn, hp⟩ := hex
        rcases List.mem_cons.mp hn with rfl | hn
        · exact absurd hx hp
        · exact ⟨n, hn, hp⟩
      obtain ⟨k, n, hk, hp, hmin⟩ := ih hex'
      refine ⟨k + 1, n, by simpa using hk, hp, ?_⟩
      intro i m hi hm
      cases i with
      | zero =>
        simp only [List.getElem?_cons_zero, Option.some.injEq] at hm
        subst hm
        exact hx
      | succ i =>
        simp only [List.getElem?_cons_succ] at hm
        exact hmin i m (by omega) hm
    · exact ⟨0, x, by simp, hx, fun i m hi _ => by omega⟩

theorem tag_of_send (j : Job) (i : Nat) (r : Item × Job) (hs : j.send i = some r) :
    j.tag ≠ 4 := by
  cases j <;> simp [Job.send, Job.tag] at hs ⊢

theorem tag_of_inLoop (j : Job) (hl : j.inLoop = true) : j.tag ≠ 0 := by
  cases j <;> simp [Job.inLoop, Job.tag] at hl ⊢

theorem length_eq_of_todo_nil (h : HashService) (stages : List Stage) (s : State)
    (hinv : PipeInv h stages s) (htodo : s.todo = []) : s.nodes.length = stages.length := by
  have h1 := hinv.todo_eq
  rw [htodo] at h1
  have h2 : stages.drop s.nodes.length = [] := by
    cases hd : stages.drop s.nodes.length with
    | nil => rfl
    | cons a t => rw [hd] at h1; simp at h1
  have h3 : stages.length ≤ s.nodes.length := by
    have := congrArg List.length h2
    simp only [List.length_drop, List.length_nil] at this
    omega
  by_contra hne
  have hlt : stages.length < s.nodes.length := by omega
  have hn : s.nodes[stages.length]? = some s.nodes[stages.length] :=
    List.getElem?_eq_getElem hlt
  obtain ⟨st, hst, _⟩ := hinv.shape _ _ hn
  have := (List.getElem?_eq_some.mp hst).1
  omega

theorem pipeline_progress (h : HashService) (stages : List Stage) (s : State)
    (hwf : WellFormed stages) (hinv : PipeInv h stages s)
    (hlive : s.returned = false ∨ ∃ n ∈ s.nodes, n.phase ≠ .finished) :
    ∃ a s', step h s a = some s' := by
  cases htodo : s.todo with
  | cons j rest => exact ⟨.spawn, _, by simp only [step, htodo]; rfl⟩
  | nil =>
    have hlen := length_eq_of_todo_nil h stages s hinv htodo
    by_cases hex : ∃ n ∈ s.nodes, n.phase ≠ .finished
    · obtain ⟨k, n, hk, hp, hmin⟩ := exists_first_unfinished s.nodes hex
      have hg := hinv.good n (mem_of_getElem? _ _ _ hk)
      obtain ⟨st, hst, htag⟩ := hinv.shape k n hk
      cases hph : n.phase with
      | finished => exact absurd hph hp
      | signalled => exact ⟨.close k, _, by simp only [step, hk, hph, if_true]; rfl⟩
      | running =>
        cases hr : n.job.returned with
        | true =>
          exact ⟨.done k, _, by simp only [step, hk, hph, hr, and_self, if_true]; rfl⟩
        | false =>
          cases hl : n.job.inLoop with
          | true =>
            have hk0 : k ≠ 0 := by
              intro h0
              have := (wf_generator_first stages hwf k st hst).mpr h0
              exact tag_of_inLoop n.job hl (by rw [htag]; exact this)
            obtain ⟨k', rfl⟩ : ∃ k', k = k' + 1 := ⟨k - 1, by omega⟩
            have hlt : k' < s.nodes.length := by
              have := (List.getElem?_eq_some.mp hk).1
              omega
            have hk' : s.nodes[k']? = some s.nodes[k'] := List.getElem?_eq_getElem hlt
            have hfin := hmin k' _ (by omega) hk'
            obtain ⟨j', hj'⟩ := (Job.job_inLoop_enabled n.job hl).2
            exact ⟨.eof k', _, by simp only [step, hk', hk, hfin, hj', if_true]; rfl⟩
          | false =>
            rcases Job.job_progress h n.job hg hr hl with ⟨a, j', ha⟩ | ⟨i, r, hi⟩
            · exact ⟨.job k a, _, by simp only [step, hk, ha]; rfl⟩
            · have ht4 := tag_of_send n.job i r hi
              have hklt : k < stages.length := (List.getElem?_eq_some.mp hst).1
              have hk1 : k + 1 < s.nodes.length := by
                by_contra hge
                have hkl : k = stages.length - 1 := by omega
                have hl := wf_last stages hwf
                rw [← hkl, hst] at hl
                simp only [Option.some.injEq] at hl
                rw [hl] at htag
                exact ht4 htag
              have hm : s.nodes[k + 1]? = some s.nodes[k + 1] := List.getElem?_eq_getElem hk1
              obtain ⟨stm, hstm, htm⟩ := hinv.shape (k + 1) _ hm
              have hm0 : (s.nodes[k + 1]).job.tag ≠ 0 := by
                rw [htm]
                intro h0
                have := (wf_generator_first stages hwf (k + 1) stm hstm).mp h0
                omega
              have hml : (s.nodes[k + 1]).job.inLoop = true := by
                cases hq : (s.nodes[k + 1]).job.inLoop with
                | true => rfl
                | false => exact absurd (hinv.adj k n _ hk hm hm0 hq) hp
              obtain ⟨x, j⟩ := r
              obtain ⟨j', hj'⟩ := (Job.job_inLoop_enabled _ hml).1 x
              exact ⟨.pass k i, _, by simp only [step, hk, hm, hi, hj']; rfl⟩
    · have hall : ∀ n ∈ s.nodes, n.phase = .finished := by
        intro n hn
        by_contra hp
        exact hex ⟨n, hn, hp⟩
      have hret : s.returned = false := by
        rcases hlive with hr | hr
        · exact hr
        · exact absurd hr hex
      have hwg : s.wg = 0 := by
        rw [hinv.wg_eq]
        apply List.sum_eq_zero
        intro x hx
        obtain ⟨n, hn, rfl⟩ := List.mem_map.mp hx
        simp [hall n hn, Phase.live]
      exact ⟨.wait, _, by simp only [step, htodo, hwg, hret, and_self, if_true]; rfl⟩

end ExecutePipeline

/-! ## ExecutePipeline: what the collector holds -/

namespace ExecutePipeline

theorem exec_flow (h : HashService) (stages : List Stage) (sched : List Act) (s s' : State)
    (hwf : WellFormed stages) (hinv : PipeInv h stages s) (hs : exec h s sched = some s') :
    flow h s'.jobs 0 = flow h s.jobs 0 := by
  induction sched generalizing s with
  | nil =>
    simp only [exec, Option.some.injEq] at hs
    subst hs
    rfl
  | cons a rest ih =>
    simp only [exec] at hs
    split at hs
    · rename_i s1 h1
      rw [ih s1 (step_inv h stages s s1 a hinv h1) hs]
      exact step_flow h stages s s1 a hwf hinv h1
    · simp at hs

theorem tag_sink (j : Job) (ht : j.tag = 4) : ∃ got r, j = .sink got r := by
  cases j <;> simp [Job.tag] at ht
  exact ⟨_, _, rfl⟩

theorem collected_spec (h : HashService) (stages : List Stage) (s : State)
    (hwf : WellFormed stages) (hinv : PipeInv h stages s) :
    (s.collected : Multiset Item) ≤ flow h s.jobs 0 ∧
      (s.returned = true → (s.collected : Multiset Item) = flow h s.jobs 0) := by
  have hlast := wf_last stages hwf
  have hpos : 0 < stages.length := by
    obtain ⟨xs, middle, rfl, _⟩ := hwf
    simp
  rcases List.eq_nil_or_concat s.nodes with hnil | ⟨pre, last, hcat⟩
  · have hc : s.collected = [] := by simp [State.collected, hnil]
    rw [hc]
    refine ⟨Multiset.zero_le _, fun hr => ?_⟩
    have hl := length_eq_of_todo_nil h stages s hinv (hinv.wait hr).1
    rw [hnil] at hl
    simp only [List.length_nil] at hl
    omega
  · rw [List.concat_eq_append] at hcat
    have hk : s.nodes[pre.length]? = some last := by
      rw [hcat, List.getElem?_append_right (Nat.le_refl _)]
      simp
    have hlen : s.nodes.length = pre.length + 1 := by rw [hcat]; simp
    obtain ⟨st, hst, htag⟩ := hinv.shape _ _ hk
    have hgl : s.nodes.getLast? = some last := by rw [hcat]; exact List.getLast?_concat _
    by_cases h4 : last.job.tag = 4
    · obtain ⟨got, r, hjob⟩ := tag_sink last.job h4
      have hc : s.collected = got := by
        obtain ⟨lj, lp⟩ := last
        simp only at hjob
        subst hjob
        simp only [State.collected, hgl]
      have hfull := wf_collector_last stages hwf _ st hst (by rw [← htag]; exact h4)
      have htodo : s.todo = [] := by
        rw [hinv.todo_eq, List.drop_eq_nil_of_le (by omega)]
        rfl
      have hjobs : s.jobs = pre.map (fun n => n.job) ++ [Job.sink got r] := by
        simp only [State.jobs, htodo, hcat, List.map_append, List.map_cons, List.map_nil,
          List.append_nil, hjob]
      rw [hc, hjobs, flow_append]
      simp only [flow, Job.emits]
      refine ⟨Multiset.le_add_right _ _, fun hr => ?_⟩
      have hwg := (hinv.wait hr).2
      rw [hinv.wg_eq] at hwg
      have hz := eq_zero_of_sum_map_eq_zero _ _ hwg last (mem_of_getElem? _ _ _ hk)
      have hnr : last.phase ≠ .running := by
        intro hp
        rw [hp] at hz
        simp [Phase.live] at hz
      have hret := hinv.ret last (mem_of_getElem? _ _ _ hk) hnr
      rw [hjob] at hret
      simp only [Job.returned] at hret
      subst hret
      simp
    · have hc : s.collected = [] := by
        obtain ⟨lj, lp⟩ := last
        simp only [State.collected, hgl]
        cases lj <;> simp [Job.tag] at h4 ⊢
      rw [hc]
      refine ⟨Multiset.zero_le _, fun hr => ?_⟩
      have hl := length_eq_of_todo_nil h stages s hinv (hinv.wait hr).1
      have hidx : pre.length = stages.length - 1 := by omega
      rw [← hidx, hst] at hlast
      simp only [Option.some.injEq] at hlast
      rw [hlast] at htag
      exact absurd htag h4

theorem run_collected (h : HashService) (stages : List Stage) (sched : List Act) (s : State)
    (hwf : WellFormed stages) (hs : exec h (init stages) sched = some s) :
    (s.collected : Multiset Item) ≤ flow h (stages.map Stage.start) 0 ∧
      (s.returned = true → (s.collected : Multiset Item) = flow h (stages.map Stage.start) 0) := by
  have hinv := exec_inv h stages sched _ s (init_inv h stages) hs
  have hf := exec_flow h stages sched _ s hwf (init_inv h stages) hs
  have hj : (init stages).jobs = stages.map Stage.start := by simp [State.jobs, init]
  rw [hj] at hf
  rw [← hf]
  exact collected_spec h stages s hwf hinv

end ExecutePipeline

/-! ## What the pipelines of the claims deliver -/

namespace ExecutePipeline

theorem run_complete (h : HashService) (stages : List Stage) (sched : List Act) (s : State)
    (hwf : WellFormed stages) (hs : exec h (init stages) sched = some s) :
    ((s.returned = false ∨ ∃ n ∈ s.nodes, n.phase ≠ .finished) → ∃ a s', step h s a = some s') ∧
      sched.length + s.size stages ≤ (init stages).size stages :=
  ⟨pipeline_progress h stages s hwf (exec_inv h stages sched _ s (init_inv h stages) hs),
    exec_size h stages sched _ s (init_inv h stages) hs⟩

theorem flow_combine (h : HashService) (xs : List Item) :
    flow h ([Stage.generator xs, .CombineResults, .collector].map Stage.start) 0 =
      {Item.str (stringsJoin (sortStrings (xs.map sprintV)) (lit "_"))} := by
  simp only [List.map_cons, List.map_nil, Stage.start, Job.generator, Job.collector,
    CombineResults.init, flow, Job.emits, Multiset.coe_nil, zero_add, Multiset.map_coe, sort_coe,
    Bool.false_eq_true, if_false]

theorem flow_multi (h : HashService) (xs : List Item) :
    flow h ([Stage.generator xs, .MultiHash, .collector].map Stage.start) 0 =
      ((xs.map (fun x => Item.str (MultiHash.wide h (sprintV x))) : List Item) :
        Multiset Item) := by
  simp [Stage.start, Job.generator, Job.collector, MultiHash.init, flow, Job.emits,
    MultiHash.State.owed]

theorem flow_single (h : HashService) (xs : List Item) :
    flow h ([Stage.generator xs, .SingleHash, .collector].map Stage.start) 0 =
      ((xs.map (fun x => Item.str (SingleHash.digest h (sprintV x))) : List Item) :
        Multiset Item) := by
  simp [Stage.start, Job.generator, Job.collector, SingleHash.init, flow, Job.emits,
    SingleHash.State.owed]

/-- The string the signer chain owes for an input set. -/
theorem flow_chain (h : HashService) (xs : List Item) (tail : List Stage) :
    flow h ((Stage.generator xs :: .SingleHash :: .MultiHash :: .CombineResults :: tail).map
        Stage.start) 0 =
      flow h (tail.map Stage.start)
        {Item.str (stringsJoin (sortStrings
          (xs.map (fun x => MultiHash.wide h (SingleHash.digest h (sprintV x))))) (lit "_"))} := by
  simp only [List.map_cons, Stage.start, Job.generator, SingleHash.init, MultiHash.init,
    CombineResults.init, flow, Job.emits, SingleHash.State.owed, MultiHash.State.owed,
    List.map_nil, List.sum_nil, zero_add, if_true, Multiset.map_coe, Multiset.coe_nil, sort_coe,
    List.map_map]
  rfl

theorem wf_three (xs : List Item) (st : Stage)
    (hst : st = .SingleHash ∨ st = .MultiHash ∨ st = .CombineResults) :
    WellFormed [.generator xs, st, .collector] :=
  ⟨xs, [st], rfl, by simpa using hst⟩

theorem wf_five (xs : List Item) :
    WellFormed [.generator xs, .SingleHash, .MultiHash, .CombineResults, .collector] :=
  ⟨xs, [.SingleHash, .MultiHash, .CombineResults], rfl, by simp⟩

theorem sortStrings_perm_eq (xs ys : List Str) (hp : xs.Perm ys) :
    sortStrings xs = sortStrings ys := by
  apply List.eq_of_perm_of_sorted (r := StrLE)
  · exact ((List.perm_insertionSort StrLE xs).trans hp).trans
      (List.perm_insertionSort StrLE ys).symm
  · exact List.sorted_insertionSort StrLE xs
  · exact List.sorted_insertionSort StrLE ys

end ExecutePipeline

/-! ## ExecutePipeline: a terminal CombineResults never completes its send -/

namespace ExecutePipeline

theorem tag_combine (j : Job) (ht : j.tag = 3) : ∃ c, j = .combine c := by
  cases j <;> simp [Job.tag] at ht
  exact ⟨_, rfl⟩

theorem terminal_step (h : HashService) (pre : List Stage) (s s' : State) (a : Act)
    (hinv : PipeInv h (pre ++ [.CombineResults]) s)
    (hq : ∀ n, s.nodes[pre.length]? = some n → n.job.returned = false)
    (hs : step h s a = some s') :
    ∀ n, s'.nodes[pre.length]? = some n → n.job.returned = false := by
  have hstage : ∀ (n : Node), s.nodes[pre.length]? = some n → ∃ c, n.job = .combine c := by
    intro n hn
    obtain ⟨st, hst, ht⟩ := hinv.shape _ _ hn
    rw [List.getElem?_append_right (Nat.le_refl _)] at hst
    simp only [Nat.sub_self, List.getElem?_cons_zero, Option.some.injEq] at hst
    subst hst
    exact tag_combine n.job ht
  have hnone : ∀ (m : Node), s.nodes[pre.length + 1]? = some m → False := by
    intro m hm
    obtain ⟨st, hst, _⟩ := hinv.shape _ _ hm
    have := (List.getElem?_eq_some.mp hst).1
    simp only [List.length_append, List.length_singleton] at this
    omega
  cases a with
  | spawn =>
    simp only [step] at hs
    split at hs
    · rename_i j rest htodo
      simp only [Option.some.injEq] at hs
      subst hs
      intro n hn
      simp only at hn
      by_cases hlt : pre.length < s.nodes.length
      · rw [List.getElem?_append_left hlt] at hn
        exact hq n hn
      · have hle : s.nodes.length ≤ pre.length := by omega
        rw [List.getElem?_append_right hle] at hn
        have hlen := (List.getElem?_eq_some.mp hn).1
        simp only [List.length_singleton] at hlen
        have heq : s.nodes.length = pre.length := by omega
        have h0 : pre.length - s.nodes.length = 0 := by omega
        rw [h0] at hn
        simp only [List.getElem?_cons_zero, Option.some.injEq] at hn
        subst hn
        have hte := hinv.todo_eq
        rw [htodo, heq, List.drop_left] at hte
        simp only [List.map_cons, List.map_nil, List.cons.injEq] at hte
        rw [hte.1]
        rfl
    · simp at hs
  | job k a =>
    simp only [step] at hs
    split at hs
    · rename_i n hn
      split at hs
      · rename_i j hj
        simp only [Option.some.injEq] at hs
        subst hs
        intro n' hn'
        simp only [List.getElem?_set] at hn'
        by_cases e : k = pre.length
        · subst e
          obtain ⟨c, hc⟩ := hstage n hn
          rw [hc] at hj
          simp [Job.internal] at hj
        · rw [if_neg e] at hn'
          exact hq n' hn'
      · simp at hs
    · simp at hs
  | pass k i =>
    simp only [step] at hs
    split at hs
    · rename_i n m hn hm
      split at hs
      · rename_i x j hj
        split at hs
        · rename_i j' hj'
          simp only [Option.some.injEq] at hs
          subst hs
          intro n' hn'
          simp only [List.getElem?_set, List.length_set] at hn'
          by_cases e1 : k + 1 = pre.length
          · rw [if_pos e1, if_pos (List.getElem?_eq_some.mp hm).1] at hn'
            cases hn'
            have hgm := hinv.good m (mem_of_getElem? _ _ _ hm)
            obtain ⟨stm, hstm, htm⟩ := hinv.shape (k + 1) m hm
            obtain ⟨g', _, _, _, l2, _⟩ := Job.job_recv_spec h 0 m.job j' x stm hgm hj' htm
            exact not_returned_of_inLoop h j' g' l2
          · rw [if_neg e1] at hn'
            by_cases e2 : k = pre.length
            · subst e2
              exact (hnone m hm).elim
            · rw [if_neg e2] at hn'
              exact hq n' hn'
        · simp at hs
      · simp at hs
    · simp at hs
  | eof k =>
    simp only [step] at hs
    split at hs
    · rename_i n m hn hm
      split at hs
      · split at hs
        · rename_i j' hj'
          simp only [Option.some.injEq] at hs
          subst hs
          intro n' hn'
          simp only [List.getElem?_set] at hn'
          by_cases e1 : k + 1 = pre.length
          · rw [if_pos e1, if_pos (List.getElem?_eq_some.mp hm).1] at hn'
            cases hn'
            rw [e1] at hm
            obtain ⟨c, hc⟩ := hstage m hm
            rw [hc] at hj'
            cases c <;> simp [Job.eof, CombineResults.eof] at hj'
            subst hj'
            rfl
          · rw [if_neg e1] at hn'
            exact hq n' hn'
        · simp at hs
      · simp at hs
    · simp at hs
  | done k =>
    simp only [step] at hs
    split at hs
    · rename_i n hn
      split at hs
      · simp only [Option.some.injEq] at hs
        subst hs
        intro n' hn'
        simp only [List.getElem?_set] at hn'
        by_cases e : k = pre.length
        · rw [if_pos e, if_pos (List.getElem?_eq_some.mp hn).1] at hn'
          cases hn'
          rw [e] at hn
          exact hq n hn
        · rw [if_neg e] at hn'
          exact hq n' hn'
      · simp at hs
    · simp at hs
  | close k =>
    simp only [step] at hs
    split at hs
    · rename_i n hn
      split at hs
      · simp only [Option.some.injEq] at hs
        subst hs
        intro n' hn'
        simp only [List.getElem?_set] at hn'
        by_cases e : k = pre.length
        · rw [if_pos e, if_pos (List.getElem?_eq_some.mp hn).1] at hn'
          cases hn'
          rw [e] at hn
          exact hq n hn
        · rw [if_neg e] at hn'
          exact hq n' hn'
      · simp at hs
    · simp at hs
  | wait =>
    simp only [step] at hs
    split at hs
    · simp only [Option.some.injEq] at hs
      subst hs
      exact hq
    · simp at hs

theorem terminal_exec (h : HashService) (pre : List Stage) (sched : List Act) (s s' : State)
    (hinv : PipeInv h (pre ++ [.CombineResults]) s)
    (hq : ∀ n, s.nodes[pre.length]? = some n → n.job.returned = false)
    (hs : exec h s sched = some s') :
    ∀ n, s'.nodes[pre.length]? = some n → n.job.returned = false := by
  induction sched generalizing s with
  | nil =>
    simp only [exec, Option.some.injEq] at hs
    subst hs
    exact hq
  | cons a rest ih =>
    simp only [exec] at hs
    split at hs
    · rename_i s1 h1
      exact ih s1 (step_inv h _ s s1 a hinv h1) (terminal_step h pre s s1 a hinv hq h1) hs
    · simp at hs

/-- With `CombineResults` as the last stage, `ExecutePipeline` never returns. -/
theorem terminal_combine_blocks (h : HashService) (pre : List Stage) (sched : List Act)
    (s : State) (hs : exec h (init (pre ++ [.CombineResults])) sched = some s) :
    s.returned = false := by
  have hinv := exec_inv h _ sched _ s (init_inv h _) hs
  have hq := terminal_exec h pre sched _ s (init_inv h _)
    (fun n hn => by simp [init] at hn) hs
  cases hr : s.returned with
  | false => rfl
  | true =>
    obtain ⟨htodo, hwg⟩ := hinv.wait hr
    have hlen := length_eq_of_todo_nil h _ s hinv htodo
    simp only [List.length_append, List.length_singleton] at hlen
    have hlt : pre.length < s.nodes.length := by omega
    have hn : s.nodes[pre.length]? = some s.nodes[pre.length] := List.getElem?_eq_getElem hlt
    rw [hinv.wg_eq] at hwg
    have hz := eq_zero_of_sum_map_eq_zero _ _ hwg _ (mem_of_getElem? _ _ _ hn)
    have hnr : (s.nodes[pre.length]).phase ≠ .running := by
      intro hp
      rw [hp] at hz
      simp [Phase.live] at hz
    have := hinv.ret _ (mem_of_getElem? _ _ _ hn) hnr
    rw [hq _ hn] at this
    cases this

end ExecutePipeline

/-! ## The claims -/

namespace ExecutePipeline

theorem collected_of_le_singleton (l : List Item) (v : Item)
    (hl : (l : Multiset Item) ≤ {v}) : l = [] ∨ l = [v] := by
  rcases Multiset.le_singleton.mp hl with h0 | h1
  · exact Or.inl ((Multiset.coe_eq_zero l).mp h0)
  · exact Or.inr (Multiset.coe_eq_singleton.mp h1)

/-- C1. `CombineResults` between a feed that delivers the strings `xs` and is then closed, and a
consumer of its output feed: in every run, under every schedule, what `CombineResults` has sent
is nothing or the single string `strings.Join(sort.Strings(xs), "_")`; once the pipeline has
returned it is exactly that one string; until then some step is enabled, and the number of steps
is bounded, so every run gets there. The sorted slice is ascending in byte order and a
rearrangement of `xs`; for no strings the value sent is the empty string. -/
theorem CombineResults_sorted_join (h : HashService) (xs : List Str) (sched : List Act)
    (s : State)
    (hrun : exec h (init [.generator (xs.map Item.str), .CombineResults, .collector]) sched
      = some s) :
    (s.collected = [] ∨ s.collected = [Item.str (stringsJoin (sortStrings xs) (lit "_"))]) ∧
      (s.returned = true →
        s.collected = [Item.str (stringsJoin (sortStrings xs) (lit "_"))]) ∧
      (s.returned = false → ∃ a s', step h s a = some s') ∧
      sched.length + s.size [.generator (xs.map Item.str), .CombineResults, .collector] ≤
        (init [.generator (xs.map Item.str), .CombineResults, .collector]).size
          [.generator (xs.map Item.str), .CombineResults, .collector] ∧
      (sortStrings xs).Sorted StrLE ∧ (sortStrings xs).Perm xs ∧
      stringsJoin (sortStrings []) (lit "_") = [] := by
  have hwf := wf_three (xs.map Item.str) .CombineResults (Or.inr (Or.inr rfl))
  obtain ⟨hle, heq⟩ := run_collected h _ sched s hwf hrun
  obtain ⟨hprog, hbound⟩ := run_complete h _ sched s hwf hrun
  rw [flow_combine] at hle heq
  have hmap : (xs.map Item.str).map sprintV = xs := by
    rw [List.map_map]
    exact List.map_id xs
  rw [hmap] at hle heq
  exact ⟨collected_of_le_singleton _ _ hle, fun hr => Multiset.coe_eq_singleton.mp (heq hr),
    fun hr => hprog (Or.inl hr), hbound, List.sorted_insertionSort StrLE xs,
    List.perm_insertionSort StrLE xs, rfl⟩

theorem CombineResults_sorted_join_witness :
    ∃ s, exec stubHash (init [.generator ([lit "b", lit "a"].map Item.str), .CombineResults,
        .collector]) runCombine = some s ∧
      s.returned = true ∧ s.collected = [Item.str (lit "a_b")] :=
  ⟨_, rfl, rfl,
    ((CombineResults_sorted_join stubHash [lit "b", lit "a"] runCombine _ rfl).2.1 rfl).trans
      (by decide)⟩

theorem wide_eq (h : HashService) (d : Str) :
    MultiHash.wide h d =
      h.DataSignerCrc32 (lit "0" ++ d) ++ h.DataSignerCrc32 (lit "1" ++ d) ++
        h.DataSignerCrc32 (lit "2" ++ d) ++ h.DataSignerCrc32 (lit "3" ++ d) ++
        h.DataSignerCrc32 (lit "4" ++ d) ++ h.DataSignerCrc32 (lit "5" ++ d) := rfl

/-- C2. `MultiHash` between a feed that delivers the items `xs` and is then closed, and a
consumer of its output feed: in every run, under every schedule (so whatever order the inner
goroutines complete in), what `MultiHash` has sent is part of, and once the pipeline has returned
is a rearrangement of, one string per item, the string for an item with text `s` being
`crc32("0"+s) ++ crc32("1"+s) ++ crc32("2"+s) ++ crc32("3"+s) ++ crc32("4"+s) ++ crc32("5"+s)`;
until the return some step is enabled and the number of steps is bounded. -/
theorem MultiHash_six_in_index_order (h : HashService) (xs : List Item) (sched : List Act)
    (s : State) (hrun : exec h (init [.generator xs, .MultiHash, .collector]) sched = some s) :
    s.collected.Subperm (xs.map (fun x => Item.str
        (h.DataSignerCrc32 (lit "0" ++ sprintV x) ++ h.DataSignerCrc32 (lit "1" ++ sprintV x) ++
          h.DataSignerCrc32 (lit "2" ++ sprintV x) ++ h.DataSignerCrc32 (lit "3" ++ sprintV x) ++
          h.DataSignerCrc32 (lit "4" ++ sprintV x) ++ h.DataSignerCrc32 (lit "5" ++ sprintV x)))) ∧
      (s.returned = true → s.collected.Perm (xs.map (fun x => Item.str
        (h.DataSignerCrc32 (lit "0" ++ sprintV x) ++ h.DataSignerCrc32 (lit "1" ++ sprintV x) ++
          h.DataSignerCrc32 (lit "2" ++ sprintV x) ++ h.DataSignerCrc32 (lit "3" ++ sprintV x) ++
          h.DataSignerCrc32 (lit "4" ++ sprintV x) ++
          h.DataSignerCrc32 (lit "5" ++ sprintV x))))) ∧
      (s.returned = true → s.collected.length = xs.length) ∧
      (s.returned = false → ∃ a s', step h s a = some s') ∧
      sched.length + s.size [.generator xs, .MultiHash, .collector] ≤
        (init [.generator xs, .MultiHash, .collector]).size
          [.generator xs, .MultiHash, .collector] := by
  have hwf := wf_three xs .MultiHash (Or.inr (Or.inl rfl))
  obtain ⟨hle, heq⟩ := run_collected h _ sched s hwf hrun
  obtain ⟨hprog, hbound⟩ := run_complete h _ sched s hwf hrun
  rw [flow_multi] at hle heq
  simp only [wide_eq] at hle heq
  refine ⟨Multiset.coe_le.mp hle, fun hr => Multiset.coe_eq_coe.mp (heq hr), fun hr => ?_,
    fun hr => hprog (Or.inl hr), hbound⟩
  have := (Multiset.coe_eq_coe.mp (heq hr)).length_eq
  simpa using this

theorem MultiHash_six_in_index_order_witness :
    ∃ s, exec stubHash (init [.generator [.int 7], .MultiHash, .collector]) runMulti = some s ∧
      s.returned = true ∧
      s.collected = [Item.str (lit "F(07)F(17)F(27)F(37)F(47)F(57)")] :=
  ⟨_, rfl, rfl,
    (List.perm_singleton.mp
      ((MultiHash_six_in_index_order stubHash [.int 7] runMulti _ rfl).2.1 rfl)).trans
      (by decide)⟩

/-- C3. `SingleHash` between a feed that delivers the items `xs` and is then closed, and a
consumer of its output feed: in every run, under every schedule (so whichever half is computed
first), what `SingleHash` has sent is part of, and once the pipeline has returned is a
rearrangement of, one string per item, the string for an item with text `s` being
`crc32(s) ++ "~" ++ crc32(md5(s))`; until the return some step is enabled and the number of steps
is bounded. -/
theorem SingleHash_fast_tilde_slow (h : HashService) (xs : List Item) (sched : List Act)
    (s : State) (hrun : exec h (init [.generator xs, .SingleHash, .collector]) sched = some s) :
    s.collected.Subperm (xs.map (fun x => Item.str
        (h.DataSignerCrc32 (sprintV x) ++ lit "~" ++
          h.DataSignerCrc32 (h.DataSignerMd5 (sprintV x))))) ∧
      (s.returned = true → s.collected.Perm (xs.map (fun x => Item.str
        (h.DataSignerCrc32 (sprintV x) ++ lit "~" ++
          h.DataSignerCrc32 (h.DataSignerMd5 (sprintV x)))))) ∧
      (s.returned = true → s.collected.length = xs.length) ∧
      (s.returned = false → ∃ a s', step h s a = some s') ∧
      sched.length + s.size [.generator xs, .SingleHash, .collector] ≤
        (init [.generator xs, .SingleHash, .collector]).size
          [.generator xs, .SingleHash, .collector] := by
  have hwf := wf_three xs .SingleHash (Or.inl rfl)
  obtain ⟨hle, heq⟩ := run_collected h _ sched s hwf hrun
  obtain ⟨hprog, hbound⟩ := run_complete h _ sched s hwf hrun
  rw [flow_single] at hle heq
  simp only [SingleHash.digest] at hle heq
  refine ⟨Multiset.coe_le.mp hle, fun hr => Multiset.coe_eq_coe.mp (heq hr), fun hr => ?_,
    fun hr => hprog (Or.inl hr), hbound⟩
  have := (Multiset.coe_eq_coe.mp (heq hr)).length_eq
  simpa using this

theorem SingleHash_fast_tilde_slow_witness :
    ∃ s, exec stubHash (init [.generator [.int 7], .SingleHash, .collector]) runSingle = some s ∧
      s.returned = true ∧ s.collected = [Item.str (lit "F(7)~F(S(7))")] :=
  ⟨_, rfl, rfl,
    (List.perm_singleton.mp
      ((SingleHash_fast_tilde_slow stubHash [.int 7] runSingle _ rfl).2.1 rfl)).trans
      (by decide)⟩

/-- C4. The chain `SingleHash → MultiHash → CombineResults`, fed a fixed input set and drained
by a consumer: two runs that have returned hold the same final string, whatever their schedules
(so whatever order `SingleHash` and `MultiHash` emit in) and whatever order the input set is
generated in; the string is the sorted, `_`-joined list of the per-item results, and the
combination of a list of strings does not depend on their order. -/
theorem pipeline_deterministic (h : HashService) (xs ys : List Item) (hp : xs.Perm ys)
    (sched1 sched2 : List Act) (s1 s2 : State)
    (h1 : exec h (init [.generator xs, .SingleHash, .MultiHash, .CombineResults, .collector])
      sched1 = some s1)
    (h2 : exec h (init [.generator ys, .SingleHash, .MultiHash, .CombineResults, .collector])
      sched2 = some s2)
    (r1 : s1.returned = true) (r2 : s2.returned = true) :
    s1.collected = s2.collected ∧
      s1.collected = [Item.str (stringsJoin (sortStrings
        (xs.map (fun x => MultiHash.wide h (SingleHash.digest h (sprintV x))))) (lit "_"))] ∧
      ∀ us vs : List Str, us.Perm vs →
        stringsJoin (sortStrings us) (lit "_") = stringsJoin (sortStrings vs) (lit "_") := by
  have e1 := (run_collected h _ sched1 s1 (wf_five xs) h1).2 r1
  have e2 := (run_collected h _ sched2 s2 (wf_five ys) h2).2 r2
  rw [flow_chain] at e1 e2
  simp only [List.map_cons, List.map_nil, Stage.start, Job.collector, flow, Job.emits,
    Multiset.coe_nil, zero_add, Bool.false_eq_true, if_false] at e1 e2
  have c1 := Multiset.coe_eq_singleton.mp e1
  have c2 := Multiset.coe_eq_singleton.mp e2
  have hs := sortStrings_perm_eq _ _
    (hp.map (fun x => MultiHash.wide h (SingleHash.digest h (sprintV x))))
  refine ⟨?_, c1, fun us vs huv => by rw [sortStrings_perm_eq us vs huv]⟩
  rw [c1, c2, hs]

theorem pipeline_deterministic_witness :
    ∃ s1 s2,
      exec stubHash (init [.generator [.int 0, .int 1], .SingleHash, .MultiHash,
        .CombineResults, .collector]) runChainA = some s1 ∧
      exec stubHash (init [.generator [.int 1, .int 0], .SingleHash, .MultiHash,
        .CombineResults, .collector]) runChainB = some s2 ∧
      s1.collected = s2.collected :=
  ⟨_, _, rfl, rfl,
    (pipeline_deterministic stubHash [.int 0, .int 1] [.int 1, .int 0] (List.Perm.swap _ _ _)
      runChainA runChainB _ _ rfl rfl rfl rfl).1⟩

end ExecutePipeline

namespace ExecutePipeline

/-- C8, as stated, fails: on the stage list `[generator, SingleHash, MultiHash, CombineResults]`
no run of `ExecutePipeline` returns, for the send of `CombineResults` on the last feed has no
receiver (here for the input set `[0, 1]` and the stub hash service). -/
theorem ExecutePipeline_four_stages_never_returns :
    ¬ ∃ sched s,
      exec stubHash (init [.generator [.int 0, .int 1], .SingleHash, .MultiHash,
        .CombineResults]) sched = some s ∧ s.returned = true := by
  rintro ⟨sched, s, hs, hr⟩
  have := terminal_combine_blocks stubHash
    [.generator [.int 0, .int 1], .SingleHash, .MultiHash] sched s hs
  rw [this] at hr
  cases hr

/-- C8, amended. On the stage list `[generator, SingleHash, MultiHash, CombineResults,
collector]` - the signer chain followed by a stage that drains the last feed - every run of
`ExecutePipeline` returns: until it has returned some step is enabled, and the number of steps
is bounded. `CombineResults` yields exactly one string, the sorted `_`-joined per-item results:
what the collector holds is nothing or that string, and it is that string once
`ExecutePipeline` has returned. -/
theorem ExecutePipeline_with_collector (h : HashService) (xs : List Item) (sched : List Act)
    (s : State)
    (hrun : exec h (init [.generator xs, .SingleHash, .MultiHash, .CombineResults, .collector])
      sched = some s) :
    (s.returned = true → s.collected = [Item.str (stringsJoin (sortStrings
        (xs.map (fun x => MultiHash.wide h (SingleHash.digest h (sprintV x))))) (lit "_"))]) ∧
      (s.collected = [] ∨ s.collected = [Item.str (stringsJoin (sortStrings
        (xs.map (fun x => MultiHash.wide h (SingleHash.digest h (sprintV x))))) (lit "_"))]) ∧
      (s.returned = false → ∃ a s', step h s a = some s') ∧
      sched.length +
          s.size [.generator xs, .SingleHash, .MultiHash, .CombineResults, .collector] ≤
        (init [.generator xs, .SingleHash, .MultiHash, .CombineResults, .collector]).size
          [.generator xs, .SingleHash, .MultiHash, .CombineResults, .collector] := by
  obtain ⟨hle, heq⟩ := run_collected h _ sched s (wf_five xs) hrun
  obtain ⟨hprog, hbound⟩ := run_complete h _ sched s (wf_five xs) hrun
  rw [flow_chain] at hle heq
  simp only [List.map_cons, List.map_nil, Stage.start, Job.collector, flow, Job.emits,
    Multiset.coe_nil, zero_add, Bool.false_eq_true, if_false] at hle heq
  exact ⟨fun hr => Multiset.coe_eq_singleton.mp (heq hr), collected_of_le_singleton _ _ hle,
    fun hr => hprog (Or.inl hr), hbound⟩

theorem ExecutePipeline_with_collector_witness :
    ∃ s, exec stubHash (init [.generator [.int 0, .int 1], .SingleHash, .MultiHash,
        .CombineResults, .collector]) runChainA = some s ∧
      s.returned = true ∧
      s.collected = [Item.str (lit ("F(0F(0)~F(S(0)))F(1F(0)~F(S(0)))F(2F(0)~F(S(0)))" ++
        "F(3F(0)~F(S(0)))F(4F(0)~F(S(0)))F(5F(0)~F(S(0)))_F(0F(1)~F(S(1)))F(1F(1)~F(S(1)))" ++
        "F(2F(1)~F(S(1)))F(3F(1)~F(S(1)))F(4F(1)~F(S(1)))F(5F(1)~F(S(1)))"))] :=
  ⟨_, rfl, rfl,
    ((ExecutePipeline_with_collector stubHash [.int 0, .int 1] runChainA _ rfl).1 rfl).trans
      rfl⟩

end ExecutePipeline

namespace ExecutePipeline

theorem inMd5_le_crit (w : SingleHash.Worker) : w.inMd5 ≤ w.crit := by
  obtain ⟨d, g1, g2, m⟩ := w
  cases g2 <;> simp [SingleHash.Worker.inMd5, SingleHash.Worker.crit]

theorem sum_map_le_sum_map {α : Type} (f g : α → Nat) (l : List α) (hfg : ∀ x ∈ l, f x ≤ g x) :
    (l.map f).sum ≤ (l.map g).sum := by
  induction l with
  | nil => simp
  | cons x xs ih =>
    simp only [List.map_cons, List.sum_cons]
    have := hfg x (List.mem_cons_self _ _)
    have := ih (fun y hy => hfg y (List.mem_cons_of_mem _ hy))
    omega

theorem single_exclusive (h : HashService) (t : SingleHash.State) (hg : SingleHash.Good h t) :
    t.inMd5 ≤ 1 ∧ (t.workers.map SingleHash.Worker.crit).sum ≤ 1 ∧
      ∀ w ∈ t.workers, w.crit = 1 → t.mu = true := by
  have hmu := hg.mu_eq
  have hb := Bool.toNat_le t.mu
  refine ⟨?_, by omega, ?_⟩
  · have := sum_map_le_sum_map SingleHash.Worker.inMd5 SingleHash.Worker.crit t.workers
      (fun w _ => inMd5_le_crit w)
    simp only [SingleHash.State.inMd5]
    omega
  · intro w hw hc
    obtain ⟨i, hi⟩ := List.mem_iff_getElem?.mp hw
    have := le_sum_map_of_getElem? SingleHash.Worker.crit t.workers i w hi
    cases hm : t.mu with
    | true => rfl
    | false =>
      rw [hm] at hmu
      simp only [Bool.toNat_false] at hmu
      omega

theorem sum_nodes_le (nodes : List Node) (stages : List Stage) (f : Node → Nat)
    (g : Stage → Nat)
    (hshape : ∀ (k : Nat) (n : Node), nodes[k]? = some n →
      ∃ st : Stage, stages[k]? = some st ∧ f n ≤ g st) :
    (nodes.map f).sum ≤ (stages.map g).sum := by
  induction nodes generalizing stages with
  | nil => simp
  | cons x xs ih =>
    cases stages with
    | nil =>
      obtain ⟨st, hst, _⟩ := hshape 0 x (by simp)
      simp at hst
    | cons st sts =>
      obtain ⟨st', hst', hle⟩ := hshape 0 x (by simp)
      simp only [List.getElem?_cons_zero, Option.some.injEq] at hst'
      subst hst'
      have := ih sts (fun k n hk => by
        obtain ⟨st2, h2, hle2⟩ := hshape (k + 1) n (by simpa using hk)
        exact ⟨st2, by simpa using h2, hle2⟩)
      simp only [List.map_cons, List.sum_cons]
      omega

theorem count_single (stages : List Stage) :
    (stages.map (fun st => if st = Stage.SingleHash then 1 else 0)).sum =
      stages.count .SingleHash := by
  induction stages with
  | nil => rfl
  | cons st sts ih =>
    simp only [List.map_cons, List.sum_cons, List.count_cons, ih, beq_iff_eq]
    omega

/-- C5, as stated, fails: the mutex belongs to one call of `SingleHash`, not to the process. In
the pipeline `generator [0, 1] → SingleHash → SingleHash → collector` the run `runTwoSingle`
reaches a state with two `DataSignerMd5` calls in flight, one in each `SingleHash`. -/
theorem two_SingleHash_calls_overlap :
    (exec stubHash (init [.generator [.int 0, .int 1], .SingleHash, .SingleHash, .collector])
      runTwoSingle).map State.inMd5 = some 2 := by
  decide

/-- C5, amended. In every reachable state of every pipeline, within one call of `SingleHash` at
most one `DataSignerMd5` call is in flight and at most one worker is between `mu.Lock()` and
`mu.Unlock()`; a worker that is there (about to call, inside the call, or about to unlock) holds
the mutex of that call. So in a pipeline with at most one `SingleHash` stage no two
`DataSignerMd5` calls are ever in flight together. -/
theorem SingleHash_md5_exclusive (h : HashService) (stages : List Stage) (sched : List Act)
    (s : State) (hrun : exec h (init stages) sched = some s) :
    (∀ (k : Nat) (t : SingleHash.State) (ph : Phase), s.nodes[k]? = some ⟨.single t, ph⟩ →
        t.inMd5 ≤ 1 ∧ (t.workers.map SingleHash.Worker.crit).sum ≤ 1 ∧
        ∀ w ∈ t.workers, (w.g2 = .call ∨ w.g2 = .running ∨ ∃ m, w.g2 = .unlock m) →
          t.mu = true) ∧
      (stages.count .SingleHash ≤ 1 → s.inMd5 ≤ 1) := by
  have hinv := exec_inv h stages sched _ s (init_inv h stages) hrun
  constructor
  · intro k t ph hk
    have hg : SingleHash.Good h t := hinv.good _ (mem_of_getElem? _ _ _ hk)
    obtain ⟨a, b, c⟩ := single_exclusive h t hg
    refine ⟨a, b, fun w hw hc => c w hw ?_⟩
    obtain ⟨d, g1, g2, m⟩ := w
    rcases hc with hc | hc | ⟨m', hc⟩ <;> simp only at hc <;> subst hc <;> rfl
  · intro hcount
    rw [← count_single] at hcount
    refine Nat.le_trans (sum_nodes_le s.nodes stages _ _ ?_) hcount
    intro k n hk
    obtain ⟨st, hst, htag⟩ := hinv.shape k n hk
    refine ⟨st, hst, ?_⟩
    have hg := hinv.good n (mem_of_getElem? _ _ _ hk)
    cases hj : n.job with
    | single t =>
      rw [hj] at hg htag
      have h1 := (single_exclusive h t hg).1
      cases st <;> simp [Job.tag, Stage.tag] at htag
      simpa using h1
    | gen r => simp
    | multi t => simp
    | combine c => simp
    | sink g r => simp

theorem SingleHash_md5_exclusive_witness :
    ∃ s, exec stubHash (init [.generator [.int 0, .int 1], .SingleHash, .collector])
        runInMd5 = some s ∧ s.inMd5 = 1 ∧ s.inMd5 ≤ 1 :=
  ⟨_, rfl, rfl,
    (SingleHash_md5_exclusive stubHash [.generator [.int 0, .int 1], .SingleHash, .collector]
      runInMd5 _ rfl).2 (by decide)⟩

end ExecutePipeline

namespace ExecutePipeline

/-- What does hold when `ExecutePipeline` has returned: every stage has been launched, every
stage function has returned and none of its goroutines can take a step or send, and every stage
goroutine is past its `wg.Done()`. -/
theorem returned_stages_done (h : HashService) (stages : List Stage) (sched : List Act)
    (s : State) (hrun : exec h (init stages) sched = some s) (hr : s.returned = true) :
    s.todo = [] ∧ s.nodes.length = stages.length ∧
      ∀ n ∈ s.nodes, n.phase ≠ .running ∧ n.job.returned = true ∧
        (∀ a, n.job.internal h a = none) ∧ ∀ i, n.job.send i = none := by
  have hinv := exec_inv h stages sched _ s (init_inv h stages) hrun
  obtain ⟨htodo, hwg⟩ := hinv.wait hr
  refine ⟨htodo, length_eq_of_todo_nil h stages s hinv htodo, ?_⟩
  intro n hn
  rw [hinv.wg_eq] at hwg
  have hz := eq_zero_of_sum_map_eq_zero _ _ hwg n hn
  have hnr : n.phase ≠ .running := by
    intro hp
    rw [hp] at hz
    simp [Phase.live] at hz
  have hret := hinv.ret n hn hnr
  obtain ⟨_, a1, a2, _⟩ := Job.job_returned_spec h n.job (hinv.good n hn) hret
  exact ⟨hnr, hret, a1, a2⟩

/-- C6: the code at the failing input. In the run `runEarlyReturn` of a one-stage pipeline,
`ExecutePipeline` has returned while the goroutine of the stage is past its `wg.Done()` but
still before its `close(out)`: the feed is not closed and the goroutine can still take that
step. The deferred calls run in reverse order, `wg.Done()` first. -/
theorem ExecutePipeline_returns_before_close :
    ∃ s, exec stubHash (init [.generator []]) runEarlyReturn = some s ∧
      s.returned = true ∧ s.nodes.map (fun n => n.phase) = [.signalled] ∧ s.closed 0 = 0 ∧
      (step stubHash s (.close 0)).isSome = true :=
  ⟨_, rfl, rfl, rfl, rfl, rfl⟩

theorem step_closed (h : HashService) (s s' : State) (a : Act) (k : Nat)
    (hs : step h s a = some s') :
    s'.closed k = s.closed k + (if a = .close k then 1 else 0) := by
  have key : ∀ (i : Nat) (n n' : Node) (todo : List Job) (wg : Nat) (r : Bool),
      s.nodes[i]? = some n → n'.phase = n.phase →
      State.closed ⟨todo, s.nodes.set i n', wg, r⟩ k = s.closed k := by
    intro i n n' todo wg r hi hp
    simp only [State.closed, List.getElem?_set]
    by_cases e : i = k
    · subst e
      rw [if_pos rfl, if_pos (List.getElem?_eq_some.mp hi).1, hi]
      simp only [hp]
    · rw [if_neg e]
  cases a with
  | spawn =>
    simp only [step] at hs
    split at hs
    · simp only [Option.some.injEq] at hs
      subst hs
      simp only [State.closed, reduceCtorEq, if_false, Nat.add_zero]
      by_cases hlt : k < s.nodes.length
      · rw [List.getElem?_append_left hlt]
      · have hr : s.nodes[k]? = none := List.getElem?_eq_none (by omega)
        rw [hr, List.getElem?_append_right (by omega)]
        cases hd : k - s.nodes.length with
        | zero => simp
        | succ m => simp
    · simp at hs
  | job i a =>
    simp only [step] at hs
    split at hs
    · rename_i n hn
      split at hs
      · simp only [Option.some.injEq] at hs
        subst hs
        simp only [reduceCtorEq, if_false, Nat.add_zero]
        exact key i n _ _ _ _ hn rfl
      · simp at hs
    · simp at hs
  | pass i w =>
    simp only [step] at hs
    split at hs
    · rename_i n m hn hm
      split at hs
      · rename_i x j hj
        split at hs
        · rename_i j' hj'
          simp only [Option.some.injEq] at hs
          subst hs
          simp only [reduceCtorEq, if_false, Nat.add_zero]
          simp only [State.closed, List.getElem?_set, List.length_set]
          by_cases e1 : i + 1 = k
          · subst e1
            rw [if_pos rfl, if_pos (List.getElem?_eq_some.mp hm).1, hm]
          · rw [if_neg e1]
            by_cases e2 : i = k
            · subst e2
              rw [if_pos rfl, if_pos (List.getElem?_eq_some.mp hn).1, hn]
            · rw [if_neg e2]
        · simp at hs
      · simp at hs
    · simp at hs
  | eof i =>
    simp only [step] at hs
    split at hs
    · rename_i n m hn hm
      split at hs
      · split at hs
        · simp only [Option.some.injEq] at hs
          subst hs
          simp only [reduceCtorEq, if_false, Nat.add_zero]
          exact key (i + 1) m _ _ _ _ hm rfl
        · simp at hs
      · simp at hs
    · simp at hs
  | done i =>
    simp only [step] at hs
    split at hs
    · rename_i n hn
      split at hs
      · rename_i hc
        simp only [Option.some.injEq] at hs
        subst hs
        simp only [reduceCtorEq, if_false, Nat.add_zero]
        simp only [State.closed, List.getElem?_set]
        by_cases e : i = k
        · subst e
          rw [if_pos rfl, if_pos (List.getElem?_eq_some.mp hn).1, hn]
          simp [hc.1]
        · rw [if_neg e]
      · simp at hs
    · simp at hs
  | close i =>
    simp only [step] at hs
    split at hs
    · rename_i n hn
      split at hs
      · rename_i hc
        simp only [Option.some.injEq] at hs
        subst hs
        simp only [State.closed, List.getElem?_set, Act.close.injEq]
        by_cases e : i = k
        · subst e
          rw [if_pos rfl, if_pos (List.getElem?_eq_some.mp hn).1, hn]
          simp [hc]
        · rw [if_neg e, if_neg e]
          rfl
      · simp at hs
    · simp at hs
  | wait =>
    simp only [step] at hs
    split at hs
    · simp only [Option.some.injEq] at hs
      subst hs
      simp [State.closed]
    · simp at hs

theorem exec_closed (h : HashService) (sched : List Act) (s s' : State) (k : Nat)
    (hs : exec h s sched = some s') :
    s'.closed k = s.closed k + sched.count (.close k) := by
  induction sched generalizing s with
  | nil =>
    simp only [exec, Option.some.injEq] at hs
    subst hs
    simp
  | cons a rest ih =>
    simp only [exec] at hs
    split at hs
    · rename_i s1 h1
      rw [ih s1 hs, step_closed h s s1 a k h1, List.count_cons]
      by_cases e : a = .close k
      · simp [e]; omega
      · simp [e]
    · simp at hs

theorem closed_le_one (s : State) (k : Nat) : s.closed k ≤ 1 := by
  simp only [State.closed]
  split
  · split <;> omega
  · omega

/-- With `CombineResults` as the last stage, the last feed is never closed. -/
theorem terminal_feed_open (h : HashService) (pre : List Stage) (sched : List Act) (s : State)
    (hs : exec h (init (pre ++ [.CombineResults])) sched = some s) :
    sched.count (.close pre.length) = 0 := by
  have hinv := exec_inv h _ sched _ s (init_inv h _) hs
  have hq := terminal_exec h pre sched _ s (init_inv h _)
    (fun n hn => by simp [init] at hn) hs
  have hcount := exec_closed h sched _ s pre.length hs
  have h0 : (init (pre ++ [.CombineResults])).closed pre.length = 0 := by
    simp [State.closed, init]
  rw [h0, Nat.zero_add] at hcount
  rw [← hcount]
  simp only [State.closed]
  cases hn : s.nodes[pre.length]? with
  | none => rfl
  | some n =>
    have hrun := running_of_not_returned h _ s pre.length n hinv hn (hq n hn)
    simp [hrun]

theorem stuckCombine_stuck (a : Act) : step stubHash stuckCombine a = none := by
  cases a with
  | spawn => rfl
  | wait => rfl
  | job k a =>
    rcases k with _ | _ | k
    · cases a <;> rfl
    · cases a <;> rfl
    · rfl
  | pass k i =>
    rcases k with _ | _ | k
    · cases i <;> rfl
    · rfl
    · rfl
  | eof k =>
    rcases k with _ | _ | k <;> rfl
  | done k =>
    rcases k with _ | _ | k <;> rfl
  | close k =>
    rcases k with _ | _ | k <;> rfl

/-- C7, as stated, fails: a stage whose send has no receiver never ends, and its output feed is
never closed. On the stage list `[generator, SingleHash, MultiHash, CombineResults]` no run
contains the `close(out)` of `CombineResults` (feed `3`); and on `[generator [],
CombineResults]` the run `runTerminalCombine` ends in a state where `CombineResults` is blocked
on its send, its feed is open, and no step is enabled at all. -/
theorem terminal_feed_never_closed :
    (∀ sched s,
      exec stubHash (init [.generator [.int 0, .int 1], .SingleHash, .MultiHash,
        .CombineResults]) sched = some s → sched.count (.close 3) = 0) ∧
      exec stubHash (init [.generator [], .CombineResults]) runTerminalCombine
        = some stuckCombine ∧
      stuckCombine.closed 1 = 0 ∧ ∀ a, step stubHash stuckCombine a = none :=
  ⟨fun sched s hs => terminal_feed_open stubHash
      [.generator [.int 0, .int 1], .SingleHash, .MultiHash] sched s hs,
    rfl, rfl, stuckCombine_stuck⟩

/-- C7, amended. For every stage `k` of every pipeline, in every run: `close(out)` of the stage
has run at most once, and exactly once when the stage goroutine has finished; once the goroutine
is past the stage function (at `close(out)` or finished) the stage function has returned, none
of its goroutines can take a step, no send on feed `k` is enabled, and, for `SingleHash` and
`MultiHash`, every worker that was spawned has completed its send and its `wg.Done()`. In a
pipeline from a generator through signer stages to a collector every stage does finish, so its
feed is closed exactly once: while a stage has not finished some step is enabled, and the number
of steps is bounded. -/
theorem stage_closed_once_after_sends (h : HashService) (stages : List Stage)
    (sched : List Act) (s : State) (hrun : exec h (init stages) sched = some s) (k : Nat)
    (n : Node) (hk : s.nodes[k]? = some n) :
    sched.count (.close k) ≤ 1 ∧
      (n.phase = .finished ↔ sched.count (.close k) = 1) ∧
      (n.phase ≠ .running →
        n.job.returned = true ∧ (∀ a, n.job.internal h a = none) ∧
        (∀ i, n.job.send i = none) ∧ (∀ i, step h s (.pass k i) = none) ∧
        (∀ t, n.job = .single t → ∀ w ∈ t.workers, w.main = .done) ∧
        (∀ t, n.job = .multi t → ∀ w ∈ t.workers, w.main = .done) ∧
        (∀ c, n.job = .combine c → c = .ret)) ∧
      (WellFormed stages → n.phase ≠ .finished → ∃ a s', step h s a = some s') ∧
      sched.length + s.size stages ≤ (init stages).size stages := by
  have hinv := exec_inv h stages sched _ s (init_inv h stages) hrun
  have hcount := exec_closed h sched _ s k hrun
  have h0 : (init stages).closed k = 0 := by simp [State.closed, init]
  rw [h0, Nat.zero_add] at hcount
  have hle := closed_le_one s k
  have hcl : s.closed k = if n.phase = .finished then 1 else 0 := by
    simp only [State.closed, hk]
  refine ⟨by omega, ?_, ?_, ?_, exec_size h stages sched _ s (init_inv h stages) hrun⟩
  · rw [← hcount, hcl]
    by_cases hp : n.phase = .finished <;> simp [hp]
  · intro hp
    have hmem := mem_of_getElem? _ _ _ hk
    have hret := hinv.ret n hmem hp
    have hg := hinv.good n hmem
    obtain ⟨_, a1, a2, _⟩ := Job.job_returned_spec h n.job hg hret
    refine ⟨hret, a1, a2, ?_, ?_, ?_, ?_⟩
    · intro i
      simp only [step, hk]
      cases hm : s.nodes[k + 1]? with
      | none => rfl
      | some m => simp only [a2 i]
    · intro t ht w hw
      rw [ht] at hg hret
      simp only [Job.returned, decide_eq_true_eq] at hret
      exact (SingleHash.sh_returned_spec h t hg hret).2.2.2 w hw
    · intro t ht w hw
      rw [ht] at hg hret
      simp only [Job.returned, decide_eq_true_eq] at hret
      exact (MultiHash.mh_returned_spec h t hg hret).2.2.2 w hw
    · intro c hc
      rw [hc] at hret
      simpa [Job.returned] using hret
  · intro hwf hp
    exact pipeline_progress h stages s hwf hinv (Or.inr ⟨n, mem_of_getElem? _ _ _ hk, hp⟩)

theorem stage_closed_once_after_sends_witness :
    ∃ s n, exec stubHash (init [.generator [.int 0, .int 1], .SingleHash, .MultiHash,
        .CombineResults, .collector]) runChainA = some s ∧
      s.nodes[1]? = some n ∧ n.phase = .finished ∧ runChainA.count (.close 1) = 1 :=
  ⟨_, _, rfl, rfl, rfl,
    ((stage_closed_once_after_sends stubHash
      [.generator [.int 0, .int 1], .SingleHash, .MultiHash, .CombineResults, .collector]
      runChainA _ rfl 1 _ rfl).2.1).mp rfl⟩

end ExecutePipeline

/-! ## hw4: the claims on the search server -/

theorem wrapInt_of_isInt (z : Int) (hz : IsInt z) : wrapInt z = z := by
  unfold IsInt at hz
  unfold wrapInt
  omega

/-- While `offset + limit` does not overflow, the page is the window
`res[offset : min(offset+limit, len(res))]`: empty when `offset >= len(res)`, at most `limit`
users, starting at `res[offset]`, and no slice expression panics. -/
theorem SearchServer_page_window (res : List User) (limit offset : Int)
    (ho : 0 ≤ offset) (hl : 0 < limit) (hsum : offset + limit < 2 ^ 63) :
    SearchServer_page res limit offset = some ((res.drop offset.toNat).take limit.toNat) ∧
      ((res.drop offset.toNat).take limit.toNat).length ≤ limit.toNat ∧
      ((res.drop offset.toNat).take limit.toNat)[0]? = res[offset.toNat]? := by
  have h1 : addInt limit offset = limit + offset := by
    apply wrapInt_of_isInt; unfold IsInt; omega
  have h2 : addInt offset limit = offset + limit := by
    apply wrapInt_of_isInt; unfold IsInt; omega
  refine ⟨?_, ?_, ?_⟩
  · unfold SearchServer_page
    rw [h1, h2]
    by_cases hge : offset ≥ (res.length : Int)
    · rw [if_pos hge]
      have : res.length ≤ offset.toNat := by omega
      rw [List.drop_eq_nil_of_le this]
      simp
    · rw [if_neg hge]
      by_cases hgt : limit + offset > (res.length : Int)
      · rw [if_pos hgt]
        unfold sliceExpr
        rw [if_pos (by omega)]
        congr 1
        rw [List.take_of_length_le, List.take_of_length_le]
        · simp only [List.length_drop]; omega
        · simp only [List.length_drop, Int.toNat_ofNat]; omega
      · rw [if_neg hgt, if_pos hl]
        unfold sliceExpr
        rw [if_pos (by omega)]
        congr 2
        omega
  · simp only [List.length_take]
    omega
  · have hpos : 0 < limit.toNat := by omega
    rw [List.getElem?_take_of_lt hpos, List.getElem?_drop]
    simp

theorem SearchServer_page_window_witness :
    SearchServer_page [⟨0, [], 0, [], []⟩, ⟨1, [], 0, [], []⟩, ⟨2, [], 0, [], []⟩] 5 1 =
      some [⟨1, [], 0, [], []⟩, ⟨2, [], 0, [], []⟩] :=
  (SearchServer_page_window _ 5 1 (by decide) (by decide) (by decide)).1.trans (by decide)

/-- C9: the code at the failing input. For a result list of two users, `offset = 1` and
`limit = 2^63 - 1` (the largest `int`), `limit + offset` wraps to `-2^63`, the guard
`limit+offset > len(res)` is false, and the slice expression `res[offset : offset+limit]` panics
with its upper bound out of range, where the window would be `res[1:2]`. -/
theorem SearchServer_page_overflow :
    SearchServer_page [⟨0, [], 0, [], []⟩, ⟨1, [], 0, [], []⟩] (2 ^ 63 - 1) 1 = none ∧
      IsInt (2 ^ 63 - 1) ∧ addInt (2 ^ 63 - 1) 1 = -(2 ^ 63) := by
  refine ⟨by decide, ?_, by decide⟩
  unfold IsInt
  omega

theorem orderLess_eq_none (orderField : Str) :
    orderLess orderField = none ↔
      ¬ (orderField = lit "Id" ∨ orderField = lit "Age" ∨ orderField = lit "Name" ∨
        orderField = lit "") := by
  unfold orderLess
  split_ifs with h1 h2 h3
  · simp [h1]
  · rcases h2 with h2 | h2 <;> simp [h2]
  · simp [h3]
  · simp only [true_iff]
    rintro (h | h | h | h)
    · exact h1 h
    · exact h3 h
    · exact h2 (Or.inl h)
    · exact h2 (Or.inr h)

/-- C10, as stated, fails: with `orderBy == OrderByAsIs` (here `0`) `sortUsers` returns no
error for the order field `"something"`, which is none of `"Id"`, `"Age"`, `"Name"`, `""`. -/
theorem sortUsers_asIs_no_error :
    (sortUsers ⟨0, 1, lit "OrderField invalid"⟩ (fun _ us => us) [] (lit "something") 0).1
        = none ∧
      lit "something" ≠ lit "Id" ∧ lit "something" ≠ lit "Age" ∧
      lit "something" ≠ lit "Name" ∧ lit "something" ≠ lit "" := by
  decide

/-- C10, amended. For every user list, order field and `orderBy`: `sortUsers` returns the
`ErrorBadOrderField` error exactly when `orderBy` is not `OrderByAsIs` and the order field is
none of `"Id"`, `"Age"`, `"Name"` and `""`; otherwise it returns no error, so with
`orderBy == OrderByAsIs` it returns none whatever the order field. -/
theorem sortUsers_error_iff (c : OrderConsts)
    (sortSlice : (User → User → Bool) → List User → List User) (users : List User)
    (orderField : Str) (orderBy : Int) :
    (sortUsers c sortSlice users orderField orderBy).1 =
      if orderBy ≠ c.OrderByAsIs ∧
          ¬ (orderField = lit "Id" ∨ orderField = lit "Age" ∨ orderField = lit "Name" ∨
            orderField = lit "")
      then some c.ErrorBadOrderField else none := by
  have hnone := orderLess_eq_none orderField
  unfold sortUsers
  by_cases h0 : orderBy = c.OrderByAsIs
  · simp [h0]
  · rw [if_neg h0]
    cases ho : orderLess orderField with
    | none =>
      rw [if_pos ⟨h0, hnone.mp ho⟩]
    | some less =>
      have : ¬ ¬ (orderField = lit "Id" ∨ orderField = lit "Age" ∨ orderField = lit "Name" ∨
          orderField = lit "") := by
        intro hn
        rw [hnone.mpr hn] at ho
        cases ho
      rw [if_neg (fun hc => this hc.2)]

end GoCoursera
